import Mathlib

/-!
Shallow embedding of the Store-Inventory CLI (`src/app.py`).

The program keeps products in a SQLite table (peewee ORM) and offers CSV
bulk import (`add_csv`), interactive add (`add_new_product`), and CSV backup
(`backup_database`).  Here the table is modelled as a list of `Product` records
kept in id order (ids are assigned by an auto-increment field and rows are
never deleted).

Python floats are modelled as IEEE-754 binary64 values: `toDouble` rounds an
exact rational to 53 significant binary digits with round-half-to-even, which
is exactly what CPython's correctly-rounded `float(str)` and its
correctly-rounded arithmetic produce (sub-normal underflow and overflow to
infinity sit outside every magnitude this program's claims touch and are not
modelled; of `float`'s accepted spellings the decimal literal forms are
modelled, not the whitespace/exponent/`inf`/`nan` forms, which no price
format of this program uses).  Python's `round` (round-half-to-even to an
integer) is `roundHalfEvenRat`, and `"%.2f"` formatting rounds the exact
binary value of the double at two decimal places, again half-to-even.
`float(...)` / `int(...)` / `datetime.strptime` failures (ValueError) are
modelled as `none`.
-/

set_option maxRecDepth 1000000

unseal Rat.mul Rat.inv Rat.add Rat.sub

namespace StoreApp

/-- A decimal digit character, `chr(48 + n)` for `n < 10`. -/
def digitChar (n : ℕ) : Char := Char.ofNat (48 + n)

/-- Whether a character is an ASCII digit `'0'..'9'`. -/
def isDigit (c : Char) : Bool := 48 ≤ c.toNat && c.toNat ≤ 57

/-- Numeric value of an ASCII digit character. -/
def digitVal (c : Char) : ℕ := c.toNat - 48

/-- Value of a string of decimal digits (most significant first). -/
def digitsVal (l : List Char) : ℕ := l.foldl (fun a c => 10 * a + digitVal c) 0

/-- Decimal digits of `n`, most significant first; structural recursion on a
fuel argument so that it evaluates by kernel reduction. -/
def natToDigitsAux : ℕ → ℕ → List Char
  | 0, _ => []
  | fuel + 1, n =>
    if n < 10 then [digitChar n]
    else natToDigitsAux fuel (n / 10) ++ [digitChar (n % 10)]

/-- Decimal digits of `n`, most significant first (no leading zeros). -/
def natToDigits (n : ℕ) : List Char := natToDigitsAux (n + 1) n

theorem digitChar_toNat {n : ℕ} (h : n < 10) : (digitChar n).toNat = 48 + n := by
  interval_cases n <;> decide

theorem digitVal_digitChar {n : ℕ} (h : n < 10) : digitVal (digitChar n) = n := by
  interval_cases n <;> decide

theorem isDigit_digitChar {n : ℕ} (h : n < 10) : isDigit (digitChar n) = true := by
  interval_cases n <;> decide

theorem isDigit_ne_of_toNat {c : Char} (h : isDigit c = true) (m : ℕ) (hm : m < 48 ∨ 57 < m) :
    c.toNat ≠ m := by
  simp only [isDigit, Bool.and_eq_true, decide_eq_true_eq] at h
  omega

theorem digitsVal_go (l : List Char) (a : ℕ) :
    l.foldl (fun a c => 10 * a + digitVal c) a = a * 10 ^ l.length + digitsVal l := by
  induction l generalizing a with
  | nil => simp [digitsVal]
  | cons c t ih =>
    simp only [List.foldl_cons, List.length_cons, digitsVal]
    rw [ih (10 * a + digitVal c), ih (10 * 0 + digitVal c)]
    ring

theorem digitsVal_append (a b : List Char) :
    digitsVal (a ++ b) = digitsVal a * 10 ^ b.length + digitsVal b := by
  simp only [digitsVal, List.foldl_append]
  rw [digitsVal_go b (List.foldl (fun a c => 10 * a + digitVal c) 0 a)]
  rfl

theorem digitsVal_natToDigitsAux : ∀ (fuel n : ℕ), n < fuel →
    digitsVal (natToDigitsAux fuel n) = n := by
  intro fuel
  induction fuel with
  | zero => intro n h; omega
  | succ f ih =>
    intro n h
    by_cases h10 : n < 10
    · simp only [natToDigitsAux, if_pos h10, digitsVal, List.foldl]
      simpa using digitVal_digitChar h10
    · have hdiv : n / 10 < n := Nat.div_lt_self (by omega) (by omega)
      simp only [natToDigitsAux, if_neg h10]
      rw [digitsVal_append, ih (n / 10) (by omega)]
      have : digitsVal [digitChar (n % 10)] = n % 10 := by
        simpa [digitsVal] using digitVal_digitChar (Nat.mod_lt n (by omega))
      rw [this]
      simp only [List.length_singleton, pow_one]
      omega

theorem digitsVal_natToDigits (n : ℕ) : digitsVal (natToDigits n) = n :=
  digitsVal_natToDigitsAux (n + 1) n (Nat.lt_succ_self n)

theorem natToDigitsAux_all_digit : ∀ (fuel n : ℕ), n < fuel →
    (natToDigitsAux fuel n).all isDigit = true := by
  intro fuel
  induction fuel with
  | zero => intro n h; omega
  | succ f ih =>
    intro n h
    by_cases h10 : n < 10
    · simp [natToDigitsAux, if_pos h10, isDigit_digitChar h10]
    · have hdiv : n / 10 < n := Nat.div_lt_self (by omega) (by omega)
      simp only [natToDigitsAux, if_neg h10, List.all_append]
      rw [ih (n / 10) (by omega)]
      simp [isDigit_digitChar (Nat.mod_lt n (by omega : 0 < 10))]

theorem natToDigits_all_digit (n : ℕ) : (natToDigits n).all isDigit = true :=
  natToDigitsAux_all_digit (n + 1) n (Nat.lt_succ_self n)

theorem natToDigitsAux_ne_nil : ∀ (fuel n : ℕ), n < fuel → natToDigitsAux fuel n ≠ [] := by
  intro fuel
  induction fuel with
  | zero => intro n h; omega
  | succ f _ =>
    intro n _
    by_cases h10 : n < 10
    · simp [natToDigitsAux, if_pos h10]
    · simp [natToDigitsAux, if_neg h10]

theorem natToDigits_ne_nil (n : ℕ) : natToDigits n ≠ [] :=
  natToDigitsAux_ne_nil (n + 1) n (Nat.lt_succ_self n)

theorem natToDigitsAux_length_le : ∀ (fuel n k : ℕ), n < fuel → 1 ≤ k → n < 10 ^ k →
    (natToDigitsAux fuel n).length ≤ k := by
  intro fuel
  induction fuel with
  | zero => intro n k h; omega
  | succ f ih =>
    intro n k h hk hpow
    by_cases h10 : n < 10
    · simp only [natToDigitsAux, if_pos h10, List.length_singleton]; omega
    · have hdiv : n / 10 < n := Nat.div_lt_self (by omega) (by omega)
      have hk2 : 2 ≤ k := by
        by_contra hcon
        have : k = 1 := by omega
        subst this
        simp at hpow
        omega
      have hdivpow : n / 10 < 10 ^ (k - 1) := by
        have h1 : n < 10 ^ (k - 1) * 10 := by
          have : 10 ^ (k - 1) * 10 = 10 ^ k := by
            rw [← pow_succ]
            congr 1
            omega
          omega
        exact Nat.div_lt_of_lt_mul (by omega)
      simp only [natToDigitsAux, if_neg h10, List.length_append, List.length_singleton]
      have := ih (n / 10) (k - 1) (by omega) (by omega) hdivpow
      omega

theorem natToDigits_length_le {n k : ℕ} (hk : 1 ≤ k) (h : n < 10 ^ k) :
    (natToDigits n).length ≤ k :=
  natToDigitsAux_length_le (n + 1) n k (Nat.lt_succ_self n) hk h

theorem natToDigitsAux_length_ge : ∀ (fuel n k : ℕ), n < fuel → 10 ^ k ≤ n →
    k + 1 ≤ (natToDigitsAux fuel n).length := by
  intro fuel
  induction fuel with
  | zero => intro n k h; omega
  | succ f ih =>
    intro n k h hpow
    by_cases h10 : n < 10
    · have hk : k = 0 := by
        by_contra hcon
        have h1 : 10 ^ 1 ≤ 10 ^ k := Nat.pow_le_pow_right (by omega) (by omega)
        simp only [pow_one] at h1
        omega
      subst hk
      simp [natToDigitsAux, if_pos h10]
    · rcases Nat.eq_zero_or_pos k with rfl | hk
      · have hne : natToDigitsAux (f + 1) n ≠ [] := natToDigitsAux_ne_nil _ _ h
        cases hl : natToDigitsAux (f + 1) n with
        | nil => exact absurd hl hne
        | cons a t => simp
      · have hdiv : n / 10 < n := Nat.div_lt_self (by omega) (by omega)
        have hdivpow : 10 ^ (k - 1) ≤ n / 10 := by
          have h1 : 10 ^ (k - 1) * 10 = 10 ^ k := by
            rw [← pow_succ]
            congr 1
            omega
          exact (Nat.le_div_iff_mul_le (by omega)).mpr (by omega)
        simp only [natToDigitsAux, if_neg h10, List.length_append, List.length_singleton]
        have := ih (n / 10) (k - 1) (by omega) hdivpow
        omega

theorem natToDigits_length_ge {n k : ℕ} (h : 10 ^ k ≤ n) :
    k + 1 ≤ (natToDigits n).length :=
  natToDigitsAux_length_ge (n + 1) n k (Nat.lt_succ_self n) h

theorem ne_of_isDigit {c : Char} (h : isDigit c = true) :
    c ≠ '.' ∧ c ≠ '-' ∧ c ≠ '+' ∧ c ≠ '$' ∧ c ≠ '/' := by
  refine ⟨?_, ?_, ?_, ?_, ?_⟩ <;> rintro rfl <;> exact absurd h (by decide)

theorem digitsVal_cons (c : Char) (l : List Char) :
    digitsVal (c :: l) = digitVal c * 10 ^ l.length + digitsVal l := by
  simp only [digitsVal, List.foldl_cons]
  rw [digitsVal_go]
  simp [digitsVal]

/-- Left-pad a digit string with zeros to width `k` (as `"%02d"`/`"%04d"`). -/
def zeroPad (k : ℕ) (l : List Char) : List Char := List.replicate (k - l.length) '0' ++ l

/-- Two-digit zero-padded decimal rendering (`%02d`). -/
def pad2 (n : ℕ) : List Char := zeroPad 2 (natToDigits n)

/-- Four-digit zero-padded decimal rendering (`%04d`, for `%Y`). -/
def pad4 (n : ℕ) : List Char := zeroPad 4 (natToDigits n)

theorem digitsVal_replicate_zero (m : ℕ) : digitsVal (List.replicate m '0') = 0 := by
  induction m with
  | zero => rfl
  | succ k ih => rw [List.replicate_succ, digitsVal_cons, ih]; simp [show digitVal '0' = 0 by decide]

theorem digitsVal_zeroPad (k : ℕ) (l : List Char) : digitsVal (zeroPad k l) = digitsVal l := by
  unfold zeroPad
  rw [digitsVal_append, digitsVal_replicate_zero]
  simp

theorem zeroPad_all_digit {k : ℕ} {l : List Char} (h : l.all isDigit = true) :
    (zeroPad k l).all isDigit = true := by
  unfold zeroPad
  rw [List.all_append, h]
  simp only [Bool.and_true, List.all_eq_true]
  intro x hx
  rw [List.eq_of_mem_replicate hx]
  decide

theorem zeroPad_length {k : ℕ} {l : List Char} (h : l.length ≤ k) :
    (zeroPad k l).length = k := by
  unfold zeroPad
  rw [List.length_append, List.length_replicate]
  omega

theorem pad2_digitsVal (n : ℕ) : digitsVal (pad2 n) = n := by
  rw [pad2, digitsVal_zeroPad, digitsVal_natToDigits]

theorem pad2_all_digit (n : ℕ) : (pad2 n).all isDigit = true :=
  zeroPad_all_digit (natToDigits_all_digit n)

theorem pad2_length {n : ℕ} (h : n < 100) : (pad2 n).length = 2 :=
  zeroPad_length (natToDigits_length_le (by omega) (by omega : n < 10 ^ 2))

theorem pad4_digitsVal (n : ℕ) : digitsVal (pad4 n) = n := by
  rw [pad4, digitsVal_zeroPad, digitsVal_natToDigits]

theorem pad4_all_digit (n : ℕ) : (pad4 n).all isDigit = true :=
  zeroPad_all_digit (natToDigits_all_digit n)

theorem pad4_length {n : ℕ} (h : n < 10000) : (pad4 n).length = 4 :=
  zeroPad_length (natToDigits_length_le (by omega) (by omega : n < 10 ^ 4))

theorem takeWhile_append_stop {p : Char → Bool} (a : List Char) (x : Char) (b : List Char)
    (ha : ∀ c ∈ a, p c = true) (hx : p x = false) :
    (a ++ x :: b).takeWhile p = a ∧ (a ++ x :: b).dropWhile p = x :: b := by
  induction a with
  | nil => simp [List.takeWhile_cons, List.dropWhile_cons, hx]
  | cons c t ih =>
    have hc : p c = true := ha c (List.mem_cons_self _ _)
    have iht := ih (fun d hd => ha d (List.mem_cons_of_mem _ hd))
    simp only [List.cons_append, List.takeWhile_cons, List.dropWhile_cons, hc, if_pos]
    exact ⟨by rw [iht.1], iht.2⟩

/-- One parsing step of the decimal subset of Python's `float`, given the parts
before and after the first `'.'` of the input (`rest` still carries the dot). -/
def parseParts (ip rest : List Char) : Option (ℤ × ℕ) :=
  match rest with
  | [] => if ip ≠ [] ∧ ip.all isDigit then some ((digitsVal ip : ℤ), 0) else none
  | _ :: fp =>
    if (ip ≠ [] ∨ fp ≠ []) ∧ ip.all isDigit ∧ fp.all isDigit then
      some (((digitsVal ip * 10 ^ fp.length + digitsVal fp : ℕ) : ℤ), fp.length)
    else none

/-- The decimal subset of Python's `float` on an unsigned literal:
`digits`, `digits.`, `.digits` or `digits.digits`.  The result `(a, k)`
represents the exact value `a / 10 ^ k`; `none` models `ValueError`.
(The exponent/`inf`/`nan`/whitespace forms of `float` are not modelled; no
input of this program's CSV/interactive price format uses them.) -/
def parseUnsigned (l : List Char) : Option (ℤ × ℕ) :=
  parseParts (l.takeWhile (fun c => c != '.')) (l.dropWhile (fun c => c != '.'))

/-- Python's `float` on an optionally signed decimal literal; the pair
`(a, k)` represents the exact value `a / 10 ^ k`. -/
def parseFloat (l : List Char) : Option (ℤ × ℕ) :=
  match l with
  | [] => none
  | c :: rest =>
    if c = '-' then (parseUnsigned rest).map (fun a => (-a.1, a.2))
    else if c = '+' then parseUnsigned rest
    else parseUnsigned (c :: rest)

theorem all_bne_dot_of_all_digit {l : List Char} (h : l.all isDigit = true) :
    ∀ c ∈ l, (c != '.') = true := by
  intro c hc
  rw [bne_iff_ne]
  exact (ne_of_isDigit (List.all_eq_true.mp h c hc)).1

theorem parseUnsigned_decimal {ip fp : List Char} (hip : ip.all isDigit = true)
    (hfp : fp.all isDigit = true) (hne : ip ≠ [] ∨ fp ≠ []) :
    parseUnsigned (ip ++ '.' :: fp) =
      some (((digitsVal ip * 10 ^ fp.length + digitsVal fp : ℕ) : ℤ), fp.length) := by
  have hsplit := takeWhile_append_stop ip '.' fp (all_bne_dot_of_all_digit hip) (by decide)
  unfold parseUnsigned
  rw [hsplit.1, hsplit.2]
  simp only [parseParts, if_pos (And.intro hne (And.intro hip hfp))]

theorem parseUnsigned_nodot {ip : List Char} (hip : ip.all isDigit = true) (hne : ip ≠ []) :
    parseUnsigned ip = some ((digitsVal ip : ℤ), 0) := by
  unfold parseUnsigned
  rw [List.takeWhile_eq_self_iff.mpr (all_bne_dot_of_all_digit hip),
    List.dropWhile_eq_nil_iff.mpr (all_bne_dot_of_all_digit hip)]
  simp only [parseParts, if_pos (And.intro hne hip)]

theorem parseFloat_of_digit_head {c : Char} {t : List Char} (hc : isDigit c = true) :
    parseFloat (c :: t) = parseUnsigned (c :: t) := by
  obtain ⟨-, h1, h2, -, -⟩ := ne_of_isDigit hc
  simp [parseFloat, h1, h2]

theorem parseFloat_neg (l : List Char) :
    parseFloat ('-' :: l) = (parseUnsigned l).map (fun a => (-a.1, a.2)) := by
  simp [parseFloat]

/-- `str.strip('$')`: remove leading and trailing `'$'` characters. -/
def stripDollar (l : List Char) : List Char :=
  ((l.dropWhile (· == '$')).reverse.dropWhile (· == '$')).reverse

theorem dropWhile_dollar_of_ne {l : List Char} (h : ∀ c ∈ l, c ≠ '$') :
    l.dropWhile (· == '$') = l := by
  cases l with
  | nil => rfl
  | cons c t =>
    have hc : (c == '$') = false := beq_eq_false_iff_ne.mpr (h c (List.mem_cons_self _ _))
    simp [List.dropWhile_cons, hc]

theorem stripDollar_of_ne {l : List Char} (h : ∀ c ∈ l, c ≠ '$') : stripDollar l = l := by
  unfold stripDollar
  rw [dropWhile_dollar_of_ne h,
    dropWhile_dollar_of_ne (fun c hc => h c (List.mem_reverse.mp hc)), List.reverse_reverse]

theorem stripDollar_cons_dollar {l : List Char} (h : ∀ c ∈ l, c ≠ '$') :
    stripDollar ('$' :: l) = l := by
  have h1 : ('$' :: l).dropWhile (· == '$') = l.dropWhile (· == '$') := by
    simp [List.dropWhile_cons]
  unfold stripDollar
  rw [h1, dropWhile_dollar_of_ne h,
    dropWhile_dollar_of_ne (fun c hc => h c (List.mem_reverse.mp hc)), List.reverse_reverse]

/-- Python's `round` (round-half-to-even) on the exact rational `a / b`,
`b > 0`, computed with integer arithmetic. -/
def roundHalfEvenInt (a b : ℤ) : ℤ :=
  if 2 * (a - a / b * b) < b then a / b
  else if b < 2 * (a - a / b * b) then a / b + 1
  else if a / b % 2 = 0 then a / b else a / b + 1

theorem roundHalfEvenInt_exact (m : ℤ) {b : ℤ} (hb : 0 < b) :
    roundHalfEvenInt (m * b) b = m := by
  unfold roundHalfEvenInt
  rw [Int.mul_ediv_cancel m hb.ne']
  rw [show m * b - m * b = 0 by ring]
  rw [if_pos (show 2 * (0 : ℤ) < b by omega)]

/-- Floor of the base-2 logarithm (fuel-based structural recursion). -/
def natLog2Aux : ℕ → ℕ → ℕ
  | 0, _ => 0
  | f + 1, n => if n < 2 then 0 else natLog2Aux f (n / 2) + 1

/-- Floor of the base-2 logarithm of a positive natural. -/
def natLog2 (n : ℕ) : ℕ := natLog2Aux (n + 1) n

theorem natLog2Aux_spec : ∀ f n, 0 < n → n < f →
    2 ^ natLog2Aux f n ≤ n ∧ n < 2 ^ (natLog2Aux f n + 1) := by
  intro f
  induction f with
  | zero => intro n h hf; omega
  | succ g ih =>
    intro n h hf
    by_cases h2 : n < 2
    · simp only [natLog2Aux, if_pos h2]
      omega
    · have hdiv : n / 2 < n := Nat.div_lt_self (by omega) (by omega)
      have := ih (n / 2) (by omega) (by omega)
      simp only [natLog2Aux, if_neg h2]
      rw [pow_succ, pow_succ]
      omega

theorem natLog2_spec {n : ℕ} (h : 0 < n) :
    2 ^ natLog2 n ≤ n ∧ n < 2 ^ (natLog2 n + 1) :=
  natLog2Aux_spec (n + 1) n h (Nat.lt_succ_self n)

theorem round_dist (a b n : ℤ) (hb : 0 < b) :
    |(n : ℚ) - (a : ℚ) / (b : ℚ)| = ((|n * b - a| : ℤ) : ℚ) / (b : ℚ) := by
  have hbQ : (0 : ℚ) < (b : ℚ) := by exact_mod_cast hb
  have h1 : (n : ℚ) - (a : ℚ) / (b : ℚ) = ((n * b - a : ℤ) : ℚ) / (b : ℚ) := by
    rw [eq_div_iff hbQ.ne', sub_mul, div_mul_cancel₀ _ hbQ.ne']
    push_cast
    ring
  rw [h1, abs_div, abs_of_pos hbQ, Int.cast_abs]

theorem round_le_iff (a b n : ℤ) (hb : 0 < b) :
    |(n : ℚ) - (a : ℚ) / (b : ℚ)| ≤ 1 / 2 ↔ 2 * |n * b - a| ≤ b := by
  have hbQ : (0 : ℚ) < (b : ℚ) := by exact_mod_cast hb
  rw [round_dist a b n hb, div_le_div_iff hbQ (by norm_num : (0 : ℚ) < 2), one_mul,
    show ((|n * b - a| : ℤ) : ℚ) * 2 = ((|n * b - a| * 2 : ℤ) : ℚ) by push_cast; ring,
    Int.cast_le]
  constructor <;> intro h <;> linarith

theorem round_lt_iff (a b n : ℤ) (hb : 0 < b) :
    |(n : ℚ) - (a : ℚ) / (b : ℚ)| < 1 / 2 ↔ 2 * |n * b - a| < b := by
  have hbQ : (0 : ℚ) < (b : ℚ) := by exact_mod_cast hb
  rw [round_dist a b n hb, div_lt_div_iff hbQ (by norm_num : (0 : ℚ) < 2), one_mul,
    show ((|n * b - a| : ℤ) : ℚ) * 2 = ((|n * b - a| * 2 : ℤ) : ℚ) by push_cast; ring,
    Int.cast_lt]
  constructor <;> intro h <;> linarith

theorem emod_sub_bounds {a b : ℤ} (hb : 0 < b) :
    0 ≤ a - a / b * b ∧ a - a / b * b < b := by
  have h1 : a % b = a - b * (a / b) := Int.emod_def a b
  have h2 : 0 ≤ a % b := Int.emod_nonneg a hb.ne'
  have h3 : a % b < b := Int.emod_lt_of_pos a hb
  constructor <;> nlinarith [h1, h2, h3]

/-- The rounding error of round-half-to-even is at most one half. -/
theorem roundHalfEvenInt_sub_le {a b : ℤ} (hb : 0 < b) :
    |(roundHalfEvenInt a b : ℚ) - (a : ℚ) / (b : ℚ)| ≤ 1 / 2 := by
  rw [round_le_iff _ _ _ hb]
  obtain ⟨h0, h1⟩ := emod_sub_bounds (a := a) hb
  unfold roundHalfEvenInt
  split
  · next hcase =>
    rcases abs_cases (a / b * b - a) with ⟨he, hs⟩ | ⟨he, hs⟩ <;> linarith
  · split
    · next hc1 hc2 =>
      rcases abs_cases ((a / b + 1) * b - a) with ⟨he, hs⟩ | ⟨he, hs⟩ <;> nlinarith
    · split
      · next hc1 hc2 hpar =>
        rcases abs_cases (a / b * b - a) with ⟨he, hs⟩ | ⟨he, hs⟩ <;> linarith
      · next hc1 hc2 hpar =>
        rcases abs_cases ((a / b + 1) * b - a) with ⟨he, hs⟩ | ⟨he, hs⟩ <;> nlinarith

/-- Round-half-to-even is the unique nearest integer when the distance is
strictly below one half. -/
theorem roundHalfEvenInt_eq_nearest {a b n : ℤ} (hb : 0 < b)
    (h : |(n : ℚ) - (a : ℚ) / (b : ℚ)| < 1 / 2) : roundHalfEvenInt a b = n := by
  rw [round_lt_iff _ _ _ hb] at h
  obtain ⟨h0, h1⟩ := emod_sub_bounds (a := a) hb
  have hn : n = a / b ∨ n = a / b + 1 := by
    rcases lt_trichotomy n (a / b) with hlt | heq | hgt
    · exfalso
      have hle : n + 1 ≤ a / b := hlt
      have hmul : (n + 1) * b ≤ a / b * b :=
        mul_le_mul_of_nonneg_right hle hb.le
      rcases abs_cases (n * b - a) with ⟨he, hs⟩ | ⟨he, hs⟩ <;> nlinarith
    · exact Or.inl heq
    · rcases lt_trichotomy n (a / b + 1) with hlt2 | heq2 | hgt2
      · exfalso
        have hgt' : a / b + 1 ≤ n := hgt
        have hlt2' : n + 1 ≤ a / b + 1 := hlt2
        linarith
      · exact Or.inr heq2
      · exfalso
        have hle : a / b + 1 + 1 ≤ n := hgt2
        have hmul : (a / b + 1 + 1) * b ≤ n * b :=
          mul_le_mul_of_nonneg_right hle hb.le
        rcases abs_cases (n * b - a) with ⟨he, hs⟩ | ⟨he, hs⟩ <;> nlinarith
  unfold roundHalfEvenInt
  split
  · next hcase =>
    rcases hn with rfl | rfl
    · rfl
    · exfalso
      rcases abs_cases ((a / b + 1) * b - a) with ⟨he, hs⟩ | ⟨he, hs⟩ <;> nlinarith
  · split
    · next hc1 hc2 =>
      rcases hn with rfl | rfl
      · exfalso
        rcases abs_cases (a / b * b - a) with ⟨he, hs⟩ | ⟨he, hs⟩ <;> linarith
      · rfl
    · next hc1 hc2 =>
      exfalso
      have htie : 2 * (a - a / b * b) = b := by linarith
      rcases hn with rfl | rfl
      · rcases abs_cases (a / b * b - a) with ⟨he, hs⟩ | ⟨he, hs⟩ <;> linarith
      · rcases abs_cases ((a / b + 1) * b - a) with ⟨he, hs⟩ | ⟨he, hs⟩ <;> nlinarith

/-- Python's `round` on an exact rational: round-half-to-even to an integer. -/
def roundHalfEvenRat (q : ℚ) : ℤ := roundHalfEvenInt q.num (q.den : ℤ)

theorem qden_pos (q : ℚ) : (0 : ℤ) < (q.den : ℤ) := by exact_mod_cast q.pos

theorem qnum_div_qden (q : ℚ) : ((q.num : ℚ)) / (((q.den : ℤ) : ℚ)) = q := by
  push_cast
  exact Rat.num_div_den q

theorem roundHalfEvenRat_sub_le (q : ℚ) : |(roundHalfEvenRat q : ℚ) - q| ≤ 1 / 2 := by
  have := roundHalfEvenInt_sub_le (a := q.num) (qden_pos q)
  rwa [qnum_div_qden q] at this

theorem roundHalfEvenRat_eq_nearest {q : ℚ} {n : ℤ} (h : |(n : ℚ) - q| < 1 / 2) :
    roundHalfEvenRat q = n := by
  apply roundHalfEvenInt_eq_nearest (qden_pos q)
  rwa [qnum_div_qden q]

theorem roundHalfEvenRat_intCast (n : ℤ) : roundHalfEvenRat ((n : ℤ) : ℚ) = n :=
  roundHalfEvenRat_eq_nearest (by simp)

/-- Floor of a rational, computed from its reduced fraction. -/
def qfloor (q : ℚ) : ℤ := q.num / (q.den : ℤ)

theorem qfloor_eq_floor (q : ℚ) : qfloor q = ⌊q⌋ := Rat.floor_def.symm

/-- Absolute value of a rational, written so it evaluates by reduction. -/
def qabs (x : ℚ) : ℚ := if x < 0 then -x else x

theorem qabs_eq_abs (x : ℚ) : qabs x = |x| := by
  unfold qabs
  split
  · exact (abs_of_neg (by assumption)).symm
  · exact (abs_of_nonneg (not_lt.mp (by assumption))).symm

/-- The binary exponent of the double nearest a positive rational `y`: the
unique `e` with `2 ^ 52 ≤ y / 2 ^ e ≤ 2 ^ 53`. -/
def qexp (y : ℚ) : ℤ :=
  if 1 ≤ y then (natLog2 (qfloor y).toNat : ℤ) - 52
  else -((natLog2 (qfloor (1 / y)).toNat : ℤ) + 1) - 52

theorem qexp_window {y : ℚ} (hy : 0 < y) :
    (2 : ℚ) ^ (52 : ℤ) ≤ y / (2 : ℚ) ^ qexp y ∧ y / (2 : ℚ) ^ qexp y ≤ (2 : ℚ) ^ (53 : ℤ) := by
  have h2 : (0 : ℚ) < 2 := by norm_num
  unfold qexp
  split
  · next h1 =>
    have hfl : (1 : ℤ) ≤ ⌊y⌋ := Int.le_floor.mpr (by exact_mod_cast h1)
    set n := (qfloor y).toNat with hn
    have hnfl : (n : ℤ) = ⌊y⌋ := by
      rw [hn, qfloor_eq_floor, Int.toNat_of_nonneg (by omega)]
    have hnpos : 0 < n := by omega
    obtain ⟨hlo, hhi⟩ := natLog2_spec hnpos
    set L := natLog2 n with hL
    have hpe : (0 : ℚ) < (2 : ℚ) ^ ((L : ℤ) - 52) := zpow_pos h2 _
    have hyn : ((n : ℚ)) ≤ y := by
      have := Int.floor_le y
      rw [← hnfl] at this
      exact_mod_cast this
    have hyn2 : y < (n : ℚ) + 1 := by
      have := Int.lt_floor_add_one y
      rw [← hnfl] at this
      exact_mod_cast this
    have hcast1 : ((2 : ℚ)) ^ (L : ℤ) ≤ (n : ℚ) := by
      rw [zpow_natCast]
      exact_mod_cast hlo
    have hcast2 : (n : ℚ) + 1 ≤ ((2 : ℚ)) ^ ((L : ℤ) + 1) := by
      rw [show (L : ℤ) + 1 = ((L + 1 : ℕ) : ℤ) by push_cast; ring, zpow_natCast]
      exact_mod_cast hhi
    constructor
    · rw [le_div_iff hpe, ← zpow_add₀ h2.ne']
      calc (2 : ℚ) ^ (52 + ((L : ℤ) - 52)) = (2 : ℚ) ^ (L : ℤ) := by ring_nf
        _ ≤ (n : ℚ) := hcast1
        _ ≤ y := hyn
    · rw [div_le_iff hpe, ← zpow_add₀ h2.ne']
      calc y ≤ (n : ℚ) + 1 := hyn2.le
        _ ≤ (2 : ℚ) ^ ((L : ℤ) + 1) := hcast2
        _ = (2 : ℚ) ^ (53 + ((L : ℤ) - 52)) := by ring_nf
  · next h1 =>
    have hylt : y < 1 := not_le.mp h1
    have hz : (1 : ℚ) < 1 / y := by rw [lt_div_iff hy, one_mul]; exact hylt
    have hfl : (1 : ℤ) ≤ ⌊1 / y⌋ := Int.le_floor.mpr (by exact_mod_cast hz.le)
    set n := (qfloor (1 / y)).toNat with hn
    have hnfl : (n : ℤ) = ⌊1 / y⌋ := by
      rw [hn, qfloor_eq_floor, Int.toNat_of_nonneg (by omega)]
    have hnpos : 0 < n := by omega
    obtain ⟨hlo, hhi⟩ := natLog2_spec hnpos
    set J := natLog2 n with hJ
    have hzn : ((n : ℚ)) ≤ 1 / y := by
      have := Int.floor_le (1 / y)
      rw [← hnfl] at this
      exact_mod_cast this
    have hzn2 : 1 / y < (n : ℚ) + 1 := by
      have := Int.lt_floor_add_one (1 / y)
      rw [← hnfl] at this
      exact_mod_cast this
    have hcast1 : ((2 : ℚ)) ^ (J : ℤ) ≤ (n : ℚ) := by
      rw [zpow_natCast]
      exact_mod_cast hlo
    have hcast2 : (n : ℚ) + 1 ≤ ((2 : ℚ)) ^ ((J : ℤ) + 1) := by
      rw [show (J : ℤ) + 1 = ((J + 1 : ℕ) : ℤ) by push_cast; ring, zpow_natCast]
      exact_mod_cast hhi
    have hpe : (0 : ℚ) < (2 : ℚ) ^ (-((J : ℤ) + 1) - 52) := zpow_pos h2 _
    rw [one_div] at hzn hzn2
    constructor
    · rw [le_div_iff hpe, ← zpow_add₀ h2.ne']
      have hstep : (2 : ℚ) ^ (52 + (-((J : ℤ) + 1) - 52)) = ((2 : ℚ) ^ ((J : ℤ) + 1))⁻¹ := by
        rw [← zpow_neg]
        ring_nf
      rw [hstep, inv_le_comm₀ (zpow_pos h2 _) hy]
      calc y⁻¹ ≤ (n : ℚ) + 1 := hzn2.le
        _ ≤ (2 : ℚ) ^ ((J : ℤ) + 1) := hcast2
    · rw [div_le_iff hpe, ← zpow_add₀ h2.ne']
      have hstep : (2 : ℚ) ^ (53 + (-((J : ℤ) + 1) - 52)) = ((2 : ℚ) ^ ((J : ℤ)))⁻¹ := by
        rw [← zpow_neg]
        ring_nf
      rw [hstep, le_inv_comm₀ hy (zpow_pos h2 _)]
      calc (2 : ℚ) ^ (J : ℤ) ≤ (n : ℚ) := hcast1
        _ ≤ y⁻¹ := hzn

/-- Round an exact rational to the nearest IEEE-754 binary64 value
(round-half-to-even on a 53-bit significand).  This is what CPython's
`float(str)` and each correctly-rounded double operation produce. -/
def toDouble (x : ℚ) : ℚ :=
  if x = 0 then 0
  else
    (if x < 0 then -1 else 1) *
      (roundHalfEvenRat (qabs x / 2 ^ qexp (qabs x)) : ℚ) * 2 ^ qexp (qabs x)

theorem toDouble_zero : toDouble 0 = 0 := by simp [toDouble]

/-- Error bound and positivity of `toDouble` on positive input: the relative
error is at most `2 ^ (-53)`. -/
theorem toDouble_pos_spec {x : ℚ} (hx : 0 < x) :
    |toDouble x - x| ≤ x / 2 ^ (53 : ℤ) ∧ 0 < toDouble x := by
  have h2 : (0 : ℚ) < 2 := by norm_num
  have habs : qabs x = x := by rw [qabs_eq_abs, abs_of_pos hx]
  have hTD : toDouble x = (roundHalfEvenRat (x / 2 ^ qexp x) : ℚ) * 2 ^ qexp x := by
    unfold toDouble
    rw [if_neg hx.ne', if_neg (not_lt.mpr hx.le), habs]
    ring
  obtain ⟨hw1, hw2⟩ := qexp_window hx
  have hpe : (0 : ℚ) < (2 : ℚ) ^ qexp x := zpow_pos h2 _
  have hm := roundHalfEvenRat_sub_le (x / 2 ^ qexp x)
  have key : |toDouble x - x| ≤ (2 : ℚ) ^ qexp x / 2 := by
    rw [hTD]
    have hfactor : (roundHalfEvenRat (x / 2 ^ qexp x) : ℚ) * 2 ^ qexp x - x =
        ((roundHalfEvenRat (x / 2 ^ qexp x) : ℚ) - x / 2 ^ qexp x) * 2 ^ qexp x := by
      field_simp
    rw [hfactor, abs_mul, abs_of_pos hpe]
    calc |(roundHalfEvenRat (x / 2 ^ qexp x) : ℚ) - x / 2 ^ qexp x| * 2 ^ qexp x
        ≤ 1 / 2 * 2 ^ qexp x := mul_le_mul_of_nonneg_right hm hpe.le
      _ = (2 : ℚ) ^ qexp x / 2 := by ring
  have h2e : (2 : ℚ) ^ qexp x ≤ x / 2 ^ (52 : ℤ) := by
    rw [le_div_iff hpe] at hw1
    rw [le_div_iff (zpow_pos h2 (52 : ℤ))]
    linarith [hw1]
  have hfin : (x / 2 ^ (52 : ℤ)) / 2 = x / 2 ^ (53 : ℤ) := by
    rw [div_div, show (2 : ℚ) ^ (52 : ℤ) * 2 = (2 : ℚ) ^ (53 : ℤ) by norm_num]
  have hbound : |toDouble x - x| ≤ x / 2 ^ (53 : ℤ) := by
    calc |toDouble x - x| ≤ (2 : ℚ) ^ qexp x / 2 := key
      _ ≤ (x / 2 ^ (52 : ℤ)) / 2 := by linarith
      _ = x / 2 ^ (53 : ℤ) := hfin
  refine ⟨hbound, ?_⟩
  have hsmall : x / 2 ^ (53 : ℤ) < x := by
    apply div_lt_self hx
    norm_num
  rcases abs_le.mp hbound with ⟨hlow, -⟩
  linarith

theorem qabs_neg (x : ℚ) : qabs (-x) = qabs x := by
  rw [qabs_eq_abs, qabs_eq_abs, abs_neg]

theorem toDouble_neg_eq (x : ℚ) : toDouble (-x) = -toDouble x := by
  rcases lt_trichotomy x 0 with h | rfl | h
  · unfold toDouble
    rw [if_neg (by intro hc; rw [neg_eq_zero] at hc; exact h.ne hc), if_neg h.ne,
      if_neg (not_lt.mpr (by linarith)), if_pos h, qabs_neg]
    ring
  · rw [neg_zero, toDouble_zero, neg_zero]
  · unfold toDouble
    rw [if_neg (by intro hc; rw [neg_eq_zero] at hc; exact h.ne' hc), if_neg h.ne',
      if_pos (by linarith), if_neg (not_lt.mpr h.le), qabs_neg]
    ring

theorem toDouble_abs_le {x : ℚ} (hx : x ≠ 0) : |toDouble x - x| ≤ |x| / 2 ^ (53 : ℤ) := by
  rcases hx.lt_or_lt with h | h
  · have hpos : 0 < -x := by linarith
    have := (toDouble_pos_spec hpos).1
    rw [toDouble_neg_eq] at this
    rw [abs_of_neg h]
    calc |toDouble x - x| = |-toDouble x - -x| := by rw [← abs_neg]; ring_nf
      _ ≤ -x / 2 ^ (53 : ℤ) := this
  · rw [abs_of_pos h]
    exact (toDouble_pos_spec h).1

theorem toDouble_pos' {x : ℚ} (h : 0 < x) : 0 < toDouble x := (toDouble_pos_spec h).2

theorem toDouble_neg' {x : ℚ} (h : x < 0) : toDouble x < 0 := by
  have hpos : 0 < -x := by linarith
  have := toDouble_pos' hpos
  rw [toDouble_neg_eq] at this
  linarith

theorem toDouble_nonneg {x : ℚ} (h : 0 ≤ x) : 0 ≤ toDouble x := by
  rcases h.eq_or_lt with rfl | hpos
  · rw [toDouble_zero]
  · exact (toDouble_pos' hpos).le

theorem toDouble_ne_zero {x : ℚ} (hx : x ≠ 0) : toDouble x ≠ 0 := by
  rcases hx.lt_or_lt with h | h
  · exact (toDouble_neg' h).ne
  · exact (toDouble_pos' h).ne'

/-- Positive integers below `2 ^ 53` are exactly representable. -/
theorem toDouble_intCast_pos {a : ℤ} (hpos : 0 < a) (h : a.natAbs < 2 ^ 53) :
    toDouble ((a : ℤ) : ℚ) = a := by
  have h2 : (0 : ℚ) < 2 := by norm_num
  · have hx : (0 : ℚ) < (a : ℚ) := by exact_mod_cast hpos
    have h1 : (1 : ℚ) ≤ (a : ℚ) := by exact_mod_cast hpos
    have habs : qabs ((a : ℤ) : ℚ) = (a : ℚ) := by rw [qabs_eq_abs, abs_of_pos hx]
    have hfl : qfloor ((a : ℤ) : ℚ) = a := by rw [qfloor_eq_floor, Int.floor_intCast]
    set n := a.toNat with hn
    have hna : (n : ℤ) = a := Int.toNat_of_nonneg hpos.le
    have hnpos : 0 < n := by omega
    have hnlt : n < 2 ^ 53 := by
      have : a.natAbs = n := by omega
      omega
    obtain ⟨hlo, hhi⟩ := natLog2_spec hnpos
    set L := natLog2 n with hL
    have hL52 : L ≤ 52 := by
      by_contra hc
      have h53 : 53 ≤ L := by omega
      have : (2 : ℕ) ^ 53 ≤ 2 ^ L := Nat.pow_le_pow_right (by omega) h53
      omega
    have hqe : qexp ((a : ℤ) : ℚ) = (L : ℤ) - 52 := by
      unfold qexp
      rw [if_pos h1, hfl]
    have hint : ((a : ℤ) : ℚ) / (2 : ℚ) ^ ((L : ℤ) - 52) = ((a * 2 ^ (52 - L) : ℤ) : ℚ) := by
      rw [show (L : ℤ) - 52 = -(((52 - L : ℕ) : ℤ)) by push_cast; omega]
      rw [zpow_neg, div_eq_mul_inv, inv_inv, zpow_natCast]
      push_cast
      ring
    unfold toDouble
    rw [if_neg hx.ne', if_neg (not_lt.mpr hx.le), habs, hqe, hint,
      roundHalfEvenRat_intCast]
    push_cast
    rw [show (L : ℤ) - 52 = -(((52 - L : ℕ) : ℤ)) by push_cast; omega, zpow_neg,
      zpow_natCast]
    rw [one_mul, mul_assoc, mul_inv_cancel₀ (by positivity), mul_one]

/-- Integers of magnitude below `2 ^ 53` are exactly representable. -/
theorem toDouble_intCast {a : ℤ} (h : a.natAbs < 2 ^ 53) : toDouble ((a : ℤ) : ℚ) = a := by
  rcases lt_trichotomy a 0 with hneg | rfl | hpos
  · have hb : 0 < -a := by omega
    have hb2 : (-a).natAbs < 2 ^ 53 := by rw [Int.natAbs_neg]; exact h
    have hthis := toDouble_intCast_pos hb hb2
    have hcast : ((-a : ℤ) : ℚ) = -((a : ℤ) : ℚ) := by push_cast; ring
    rw [hcast, toDouble_neg_eq] at hthis
    push_cast at hthis ⊢
    linarith
  · push_cast
    exact toDouble_zero
  · exact toDouble_intCast_pos hpos h

/-- `round(float(str(C/100 with two decimals)) * 100)` is exact for every cent
value of magnitude at most `2 ^ 51 - 1`: the accumulated relative error of the
two double roundings stays below half a cent. -/
theorem double_mul100_round {c : ℤ} (h : c.natAbs ≤ 2 ^ 51 - 1) :
    roundHalfEvenRat (toDouble (toDouble ((c : ℚ) / 100) * 100)) = c := by
  rcases eq_or_ne c 0 with rfl | hc
  · have h0 : ((0 : ℤ) : ℚ) / 100 = 0 := by norm_num
    rw [h0, toDouble_zero, zero_mul, toDouble_zero]
    simpa using roundHalfEvenRat_intCast 0
  · have hM : ((2 : ℚ) ^ (53 : ℤ)) = 9007199254740992 := by norm_num
    have hcq : ((c : ℚ)) ≠ 0 := Int.cast_ne_zero.mpr hc
    have hv : ((c : ℚ) / 100) ≠ 0 := div_ne_zero hcq (by norm_num)
    have hd1 := toDouble_abs_le hv
    have hd1ne : toDouble ((c : ℚ) / 100) ≠ 0 := toDouble_ne_zero hv
    have hpne : toDouble ((c : ℚ) / 100) * 100 ≠ 0 := mul_ne_zero hd1ne (by norm_num)
    have hd2 := toDouble_abs_le hpne
    set d1 := toDouble ((c : ℚ) / 100) with hd1def
    set p := d1 * 100 with hpdef
    set d2 := toDouble p with hd2def
    have hX : |(c : ℚ)| ≤ 2251799813685247 := by
      have hnat : c.natAbs ≤ 2251799813685247 := by
        have hpow : (2 : ℕ) ^ 51 - 1 = 2251799813685247 := by norm_num
        omega
      have hco : |(c : ℚ)| = ((c.natAbs : ℕ) : ℚ) := by
        rw [Int.cast_natAbs, Int.cast_abs]
      rw [hco]
      exact_mod_cast hnat
    have habsv : |(c : ℚ) / 100| = |(c : ℚ)| / 100 := by
      rw [abs_div]
      norm_num
    have hpc : p - (c : ℚ) = 100 * (d1 - (c : ℚ) / 100) := by
      rw [hpdef]
      ring
    have hpcb : |p - (c : ℚ)| ≤ |(c : ℚ)| / 9007199254740992 := by
      rw [hpc, abs_mul, abs_of_pos (by norm_num : (0 : ℚ) < 100)]
      calc (100 : ℚ) * |d1 - (c : ℚ) / 100| ≤ 100 * (|(c : ℚ) / 100| / 2 ^ (53 : ℤ)) := by
            linarith [hd1]
        _ = |(c : ℚ)| / 9007199254740992 := by rw [habsv, hM]; ring
    have hpabs : |p| ≤ |(c : ℚ)| + |(c : ℚ)| / 9007199254740992 := by
      have := abs_sub_abs_le_abs_sub p (c : ℚ)
      linarith
    have hd2b : |d2 - p| ≤ |p| / 9007199254740992 := by
      rw [hd2def]
      calc |toDouble p - p| ≤ |p| / 2 ^ (53 : ℤ) := hd2
        _ = |p| / 9007199254740992 := by rw [hM]
    have htotal : |d2 - (c : ℚ)| < 1 / 2 := by
      have habs3 := abs_sub_le d2 p (c : ℚ)
      have hXpos : (0 : ℚ) ≤ |(c : ℚ)| := abs_nonneg _
      linarith
    exact roundHalfEvenRat_eq_nearest (by rwa [abs_sub_comm] at htotal)

/-- `round(float(raw.strip('$')) * 100)` — the price-parsing expression shared
by the CSV import (`add_csv`, line 53) and the interactive add
(`add_new_product`, line 148); `none` models `ValueError`.  The string's exact
decimal value is rounded to a double by `float`, the multiplication by 100 is
a correctly-rounded double multiplication, and `round` rounds the resulting
double half-to-even. -/
def parse_price (s : String) : Option ℤ :=
  (parseFloat (stripDollar s.data)).map fun a =>
    roundHalfEvenRat (toDouble (toDouble ((a.1 : ℚ) / 10 ^ a.2) * 100))

/-- `decimal_check` (lines 125-130): `string.index('.')` raises `ValueError`
when the string has no `'.'` (modelled as `none`); otherwise the result is
`False` iff more than 3 characters remain from the first dot on (i.e. more
than two characters after it). -/
def decimal_check (s : String) : Option Bool :=
  if '.' ∈ s.data then
    some (decide ((s.data.dropWhile (fun c => c != '.')).length ≤ 3))
  else none

/-- Outcome of one pass of the interactive price-entry loop body. -/
inductive PromptResult where
  | accepted (cents : ℤ)
  | reprompt
  deriving DecidableEq, Repr

/-- One iteration of the price-entry loop of `add_new_product` (lines 143-153):
`decimal_check`'s `ValueError` (no dot) and `InputError` (more than two
decimals) as well as `float`'s `ValueError` are caught and lead to a
re-prompt; otherwise the parsed cents are accepted. -/
def add_new_product_price_step (s : String) : PromptResult :=
  match decimal_check s with
  | none => .reprompt
  | some false => .reprompt
  | some true =>
    match parse_price s with
    | none => .reprompt
    | some c => .accepted c

/-- `datetime.datetime`: a calendar date with time-of-day fields. -/
structure PyDateTime where
  year : ℕ
  month : ℕ
  day : ℕ
  hour : ℕ
  minute : ℕ
  second : ℕ
  microsecond : ℕ
  deriving DecidableEq, Repr

/-- `datetime` comparison `a <= b` (field-lexicographic, as in CPython). -/
def PyDateTime.Le (a b : PyDateTime) : Prop :=
  a.year < b.year ∨ (a.year = b.year ∧
    (a.month < b.month ∨ (a.month = b.month ∧
      (a.day < b.day ∨ (a.day = b.day ∧
        (a.hour < b.hour ∨ (a.hour = b.hour ∧
          (a.minute < b.minute ∨ (a.minute = b.minute ∧
            (a.second < b.second ∨ (a.second = b.second ∧
              a.microsecond ≤ b.microsecond)))))))))))

/-- `datetime` comparison `a < b` (field-lexicographic, as in CPython). -/
def PyDateTime.Lt (a b : PyDateTime) : Prop :=
  a.year < b.year ∨ (a.year = b.year ∧
    (a.month < b.month ∨ (a.month = b.month ∧
      (a.day < b.day ∨ (a.day = b.day ∧
        (a.hour < b.hour ∨ (a.hour = b.hour ∧
          (a.minute < b.minute ∨ (a.minute = b.minute ∧
            (a.second < b.second ∨ (a.second = b.second ∧
              a.microsecond < b.microsecond)))))))))))

instance (a b : PyDateTime) : Decidable (PyDateTime.Le a b) := by
  unfold PyDateTime.Le
  infer_instance

instance (a b : PyDateTime) : Decidable (PyDateTime.Lt a b) := by
  unfold PyDateTime.Lt
  infer_instance

theorem PyDateTime.Le.refl (a : PyDateTime) : PyDateTime.Le a a := by
  unfold PyDateTime.Le
  omega

theorem PyDateTime.le_of_lt {a b : PyDateTime} (h : PyDateTime.Lt a b) : PyDateTime.Le a b := by
  unfold PyDateTime.Lt at h
  unfold PyDateTime.Le
  omega

theorem PyDateTime.not_le_of_lt {a b : PyDateTime} (h : PyDateTime.Lt a b) :
    ¬ PyDateTime.Le b a := by
  unfold PyDateTime.Lt at h
  unfold PyDateTime.Le
  omega

/-- Leap-year rule of the proleptic Gregorian calendar (`calendar.isleap`). -/
def isLeap (y : ℕ) : Bool := y % 4 == 0 && (y % 100 != 0 || y % 400 == 0)

/-- Number of days of month `m` of year `y` (`calendar.monthrange`). -/
def daysInMonth (y m : ℕ) : ℕ :=
  if m = 2 then (if isLeap y then 29 else 28)
  else if m = 4 ∨ m = 6 ∨ m = 9 ∨ m = 11 then 30
  else 31

/-- Split a character list at every `'/'`. -/
def splitSlash : List Char → List (List Char)
  | [] => [[]]
  | c :: rest =>
    if c = '/' then [] :: splitSlash rest
    else
      match splitSlash rest with
      | [] => [[c]]
      | g :: gs => (c :: g) :: gs

/-- Validation of the three `'/'`-separated groups of a `%m/%d/%Y` string. -/
def strptimeGroups : List (List Char) → Option PyDateTime
  | [ms, ds, ys] =>
    if ms ≠ [] ∧ ms.length ≤ 2 ∧ ms.all isDigit = true ∧
        ds ≠ [] ∧ ds.length ≤ 2 ∧ ds.all isDigit = true ∧
        ys ≠ [] ∧ ys.length = 4 ∧ ys.all isDigit = true then
      if 1 ≤ digitsVal ms ∧ digitsVal ms ≤ 12 ∧
          1 ≤ digitsVal ys ∧ digitsVal ys ≤ 9999 ∧
          1 ≤ digitsVal ds ∧ digitsVal ds ≤ daysInMonth (digitsVal ys) (digitsVal ms) then
        some ⟨digitsVal ys, digitsVal ms, digitsVal ds, 0, 0, 0, 0⟩
      else none
    else none
  | _ => none

/-- `datetime.datetime.strptime(raw, '%m/%d/%Y')`: requires exactly
`month/day/year` with 1-2 digit month and day and an exactly 4-digit year
(the `%Y` pattern of CPython `_strptime` is `\d\d\d\d`), a valid calendar
date and a year in `MINYEAR..MAXYEAR`; the parsed datetime is at midnight.
`none` models `ValueError`. -/
def strptimeMDY (s : String) : Option PyDateTime :=
  strptimeGroups (splitSlash s.data)

/-- `d.strftime('%m/%d/%Y')`: zero-padded month/day; the year prints with
no padding (glibc `%Y`), so a year below 1000 yields fewer than 4 digits. -/
def strftimeMDY (d : PyDateTime) : String :=
  String.mk (pad2 d.month ++ '/' :: (pad2 d.day ++ '/' :: natToDigits d.year))

/-- The date is representable by `%m/%d/%Y` and is a real calendar date (every
date held by the program is, having come from `strptime` or `datetime.now`). -/
def ValidDate (d : PyDateTime) : Prop :=
  1 ≤ d.month ∧ d.month ≤ 12 ∧ 1 ≤ d.day ∧ d.day ≤ daysInMonth d.year d.month ∧
    1 ≤ d.year ∧ d.year ≤ 9999

/-- Time-of-day is zero (true of every stored date: CSV dates come from
`strptime('%m/%d/%Y')` and interactive dates from
`datetime.now().replace(hour=0, minute=0, second=0, microsecond=0)`). -/
def Midnight (d : PyDateTime) : Prop :=
  d.hour = 0 ∧ d.minute = 0 ∧ d.second = 0 ∧ d.microsecond = 0

theorem splitSlash_no_slash {l : List Char} (h : ∀ c ∈ l, c ≠ '/') :
    splitSlash l = [l] := by
  induction l with
  | nil => rfl
  | cons c t ih =>
    have hc : c ≠ '/' := h c (List.mem_cons_self _ _)
    rw [splitSlash, if_neg hc, ih (fun d hd => h d (List.mem_cons_of_mem _ hd))]

theorem splitSlash_append {a : List Char} (rest : List Char) (h : ∀ c ∈ a, c ≠ '/') :
    splitSlash (a ++ '/' :: rest) = a :: splitSlash rest := by
  induction a with
  | nil => simp [splitSlash]
  | cons c t ih =>
    have hc : c ≠ '/' := h c (List.mem_cons_self _ _)
    rw [List.cons_append, splitSlash, if_neg hc,
      ih (fun d hd => h d (List.mem_cons_of_mem _ hd))]

theorem ne_slash_of_all_digit {l : List Char} (h : l.all isDigit = true) :
    ∀ c ∈ l, c ≠ '/' := fun c hc =>
  (ne_of_isDigit (List.all_eq_true.mp h c hc)).2.2.2.2

theorem zeroPad_ne_nil {k : ℕ} {l : List Char} (h : l ≠ []) : zeroPad k l ≠ [] := by
  unfold zeroPad
  intro hcon
  rcases List.append_eq_nil.mp hcon with ⟨-, h2⟩
  exact h h2

/-- `strptime` inverts `strftime` on valid dates of year at least 1000
(the unpadded `strftime` year then has exactly the 4 digits `strptime`
demands), producing the same calendar day at midnight. -/
theorem strptime_strftime (d : PyDateTime) (h : ValidDate d) (hy1000 : 1000 ≤ d.year) :
    strptimeMDY (strftimeMDY d) = some ⟨d.year, d.month, d.day, 0, 0, 0, 0⟩ := by
  obtain ⟨h1, h2, h3, h4, h5, h6⟩ := h
  have hm : (pad2 d.month).all isDigit = true := pad2_all_digit _
  have hd : (pad2 d.day).all isDigit = true := pad2_all_digit _
  have hy : (natToDigits d.year).all isDigit = true := natToDigits_all_digit _
  have hsplit : splitSlash (strftimeMDY d).data =
      [pad2 d.month, pad2 d.day, natToDigits d.year] := by
    show splitSlash (pad2 d.month ++ '/' :: (pad2 d.day ++ '/' :: natToDigits d.year)) = _
    rw [splitSlash_append _ (ne_slash_of_all_digit hm),
      splitSlash_append _ (ne_slash_of_all_digit hd),
      splitSlash_no_slash (ne_slash_of_all_digit hy)]
  have hdday : d.day ≤ daysInMonth d.year d.month := h4
  unfold strptimeMDY
  rw [hsplit, strptimeGroups]
  have hmlen : (pad2 d.month).length = 2 := pad2_length (by omega)
  have hdlen : (pad2 d.day).length = 2 := pad2_length (by
    have : daysInMonth d.year d.month ≤ 31 := by
      unfold daysInMonth
      split
      · split <;> omega
      · split <;> omega
    omega)
  have hylen : (natToDigits d.year).length = 4 := by
    have hle : (natToDigits d.year).length ≤ 4 :=
      natToDigits_length_le (by omega) (by omega : d.year < 10 ^ 4)
    have hge : 3 + 1 ≤ (natToDigits d.year).length :=
      natToDigits_length_ge (by
        show 10 ^ 3 ≤ d.year
        omega)
    omega
  rw [if_pos]
  · rw [if_pos]
    · rw [pad2_digitsVal, pad2_digitsVal, digitsVal_natToDigits]
    · rw [pad2_digitsVal, pad2_digitsVal, digitsVal_natToDigits]
      exact ⟨h1, h2, h5, h6, h3, h4⟩
  · exact ⟨zeroPad_ne_nil (natToDigits_ne_nil _), by omega, hm,
      zeroPad_ne_nil (natToDigits_ne_nil _), by omega, hd,
      natToDigits_ne_nil _, hylen, hy⟩

/-- Python `int(str)` on an optionally signed string of digits; `none`
models `ValueError`. -/
def pyIntChars (l : List Char) : Option ℤ :=
  match l with
  | [] => none
  | c :: rest =>
    if c = '-' then
      if rest ≠ [] ∧ rest.all isDigit = true then some (-(digitsVal rest : ℤ)) else none
    else if c = '+' then
      if rest ≠ [] ∧ rest.all isDigit = true then some ((digitsVal rest : ℤ)) else none
    else if (c :: rest).all isDigit = true then some ((digitsVal (c :: rest) : ℤ)) else none

/-- Python `int(raw)` on a string. -/
def pyInt (s : String) : Option ℤ := pyIntChars s.data

/-- Python `str` on an `int`. -/
def intToChars (z : ℤ) : List Char :=
  if z < 0 then '-' :: natToDigits z.natAbs else natToDigits z.natAbs

/-- Python `str` on an `int`, as a string. -/
def intToStr (z : ℤ) : String := String.mk (intToChars z)

theorem pyIntChars_intToChars (z : ℤ) : pyIntChars (intToChars z) = some z := by
  by_cases hz : z < 0
  · rw [intToChars, if_pos hz]
    rw [pyIntChars]
    rw [if_pos rfl, if_pos ⟨natToDigits_ne_nil _, natToDigits_all_digit _⟩,
      digitsVal_natToDigits]
    congr 1
    omega
  · rw [intToChars, if_neg hz]
    obtain ⟨c, t, hct⟩ := List.exists_cons_of_ne_nil (natToDigits_ne_nil z.natAbs)
    have hall : (natToDigits z.natAbs).all isDigit = true := natToDigits_all_digit _
    have hc : isDigit c = true := by
      rw [hct] at hall
      exact List.all_eq_true.mp hall c (List.mem_cons_self _ _)
    obtain ⟨-, hc1, hc2, -, -⟩ := ne_of_isDigit hc
    rw [hct, pyIntChars, if_neg hc1, if_neg hc2, if_pos (hct ▸ hall), ← hct,
      digitsVal_natToDigits]
    congr 1
    omega

/-- The cent value printed by `"%.2f" % (cents * .01)`: the stored integer is
converted to a double, multiplied by the double nearest `0.01` (one rounded
double multiplication), and the resulting double's exact value is rounded at
two decimal places, half-to-even, by the formatting. -/
def renderCents (c : ℤ) : ℤ :=
  roundHalfEvenRat (toDouble (toDouble (c : ℚ) * toDouble (1 / 100)) * 100)

/-- Whether `"%.2f" % (cents * .01)` prints a minus sign: the sign of the
double value being formatted. -/
def renderNeg (c : ℤ) : Bool :=
  decide (toDouble (toDouble (c : ℚ) * toDouble (1 / 100)) < 0)

/-- `"$%.2f" % float(cents * .01)` — the price rendering used by
`print_product_details` (line 75) and `backup_database` (line 209). -/
def renderPrice (c : ℤ) : String :=
  String.mk ('$' :: ((if renderNeg c then ['-'] else []) ++
    (natToDigits ((renderCents c).natAbs / 100) ++ '.' :: pad2 ((renderCents c).natAbs % 100))))

theorem parseUnsigned_renderPrice_body (n : ℕ) :
    parseUnsigned (natToDigits (n / 100) ++ '.' :: pad2 (n % 100)) =
      some ((n : ℤ), 2) := by
  rw [parseUnsigned_decimal (natToDigits_all_digit _) (pad2_all_digit _)
    (Or.inl (natToDigits_ne_nil _))]
  rw [pad2_length (Nat.mod_lt n (by omega)), digitsVal_natToDigits, pad2_digitsVal]
  congr 2
  omega

theorem body_ne_dollar (n : ℕ) :
    ∀ c ∈ natToDigits (n / 100) ++ '.' :: pad2 (n % 100), c ≠ '$' := by
  intro c hc
  rcases List.mem_append.mp hc with h | h
  · exact (ne_of_isDigit (List.all_eq_true.mp (natToDigits_all_digit _) c h)).2.2.2.1
  · rcases List.mem_cons.mp h with h | h
    · rw [h]; decide
    · exact (ne_of_isDigit (List.all_eq_true.mp (pad2_all_digit _) c h)).2.2.2.1

/-- For cent values of magnitude at most `2 ^ 51 - 1`, the rendering pipeline
prints the exact value: `"%.2f" % (c * .01)` shows `c` cents. -/
theorem renderCents_eq {c : ℤ} (h : c.natAbs ≤ 2 ^ 51 - 1) : renderCents c = c := by
  rcases eq_or_ne c 0 with rfl | hc
  · unfold renderCents
    rw [show ((0 : ℤ) : ℚ) = 0 by norm_num, toDouble_zero, zero_mul, toDouble_zero,
      zero_mul]
    simpa using roundHalfEvenRat_intCast 0
  · have hM : ((2 : ℚ) ^ (53 : ℤ)) = 9007199254740992 := by norm_num
    have hX : |(c : ℚ)| ≤ 2251799813685247 := by
      have hnat : c.natAbs ≤ 2251799813685247 := by
        have hpow : (2 : ℕ) ^ 51 - 1 = 2251799813685247 := by norm_num
        omega
      have hco : |(c : ℚ)| = ((c.natAbs : ℕ) : ℚ) := by
        rw [Int.cast_natAbs, Int.cast_abs]
      rw [hco]
      exact_mod_cast hnat
    have hTs := toDouble_pos_spec (show (0 : ℚ) < 1 / 100 by norm_num)
    have hTb : |toDouble (1 / 100) - 1 / 100| ≤ 1 / 900719925474099200 := by
      calc |toDouble (1 / 100) - 1 / 100| ≤ (1 / 100) / 2 ^ (53 : ℤ) := hTs.1
        _ = 1 / 900719925474099200 := by rw [hM]; norm_num
    have hdc : toDouble ((c : ℤ) : ℚ) = (c : ℚ) := toDouble_intCast (by
      have : (2 : ℕ) ^ 51 - 1 < 2 ^ 53 := by norm_num
      omega)
    have hyne : (c : ℚ) * toDouble (1 / 100) ≠ 0 :=
      mul_ne_zero (Int.cast_ne_zero.mpr hc) hTs.2.ne'
    have hyb : |(c : ℚ) * toDouble (1 / 100) - (c : ℚ) / 100| ≤
        |(c : ℚ)| / 900719925474099200 := by
      rw [show (c : ℚ) * toDouble (1 / 100) - (c : ℚ) / 100 =
        (c : ℚ) * (toDouble (1 / 100) - 1 / 100) by ring, abs_mul]
      calc |(c : ℚ)| * |toDouble (1 / 100) - 1 / 100|
          ≤ |(c : ℚ)| * (1 / 900719925474099200) :=
            mul_le_mul_of_nonneg_left hTb (abs_nonneg _)
        _ = |(c : ℚ)| / 900719925474099200 := by ring
    have hyabs : |(c : ℚ) * toDouble (1 / 100)| ≤
        |(c : ℚ)| / 100 + |(c : ℚ)| / 900719925474099200 := by
      have h1 := abs_sub_abs_le_abs_sub ((c : ℚ) * toDouble (1 / 100)) ((c : ℚ) / 100)
      have h2 : |(c : ℚ) / 100| = |(c : ℚ)| / 100 := by
        rw [abs_div]
        norm_num
      linarith
    have hxb : |toDouble ((c : ℚ) * toDouble (1 / 100)) - (c : ℚ) * toDouble (1 / 100)| ≤
        |(c : ℚ) * toDouble (1 / 100)| / 9007199254740992 := by
      calc |toDouble ((c : ℚ) * toDouble (1 / 100)) - (c : ℚ) * toDouble (1 / 100)|
          ≤ |(c : ℚ) * toDouble (1 / 100)| / 2 ^ (53 : ℤ) := toDouble_abs_le hyne
        _ = |(c : ℚ) * toDouble (1 / 100)| / 9007199254740992 := by rw [hM]
    have hfinal : |toDouble ((c : ℚ) * toDouble (1 / 100)) * 100 - (c : ℚ)| < 1 / 2 := by
      rw [show toDouble ((c : ℚ) * toDouble (1 / 100)) * 100 - (c : ℚ) =
        100 * (toDouble ((c : ℚ) * toDouble (1 / 100)) - (c : ℚ) * toDouble (1 / 100)) +
          100 * ((c : ℚ) * toDouble (1 / 100) - (c : ℚ) / 100) by ring]
      calc |100 * (toDouble ((c : ℚ) * toDouble (1 / 100)) - (c : ℚ) * toDouble (1 / 100)) +
            100 * ((c : ℚ) * toDouble (1 / 100) - (c : ℚ) / 100)|
          ≤ |100 * (toDouble ((c : ℚ) * toDouble (1 / 100)) - (c : ℚ) * toDouble (1 / 100))| +
            |100 * ((c : ℚ) * toDouble (1 / 100) - (c : ℚ) / 100)| := abs_add _ _
        _ = 100 * |toDouble ((c : ℚ) * toDouble (1 / 100)) - (c : ℚ) * toDouble (1 / 100)| +
            100 * |(c : ℚ) * toDouble (1 / 100) - (c : ℚ) / 100| := by
              rw [abs_mul, abs_mul, abs_of_pos (by norm_num : (0 : ℚ) < 100)]
        _ < 1 / 2 := by linarith
    unfold renderCents
    rw [hdc]
    exact roundHalfEvenRat_eq_nearest (by rwa [abs_sub_comm] at hfinal)

theorem renderNeg_false {c : ℤ} (h : 0 ≤ c) : renderNeg c = false := by
  simp only [renderNeg, decide_eq_false_iff_not, not_lt]
  exact toDouble_nonneg (mul_nonneg (toDouble_nonneg (by exact_mod_cast h))
    (toDouble_pos_spec (show (0 : ℚ) < 1 / 100 by norm_num)).2.le)

theorem renderNeg_true {c : ℤ} (h : c < 0) : renderNeg c = true := by
  simp only [renderNeg, decide_eq_true_eq]
  have hT := (toDouble_pos_spec (show (0 : ℚ) < 1 / 100 by norm_num)).2
  have h1 : ((c : ℤ) : ℚ) < 0 := by exact_mod_cast h
  exact toDouble_neg' (mul_neg_of_neg_of_pos (toDouble_neg' h1) hT)

/-- Parsing a rendered price recovers the cents exactly for every magnitude
at most `2 ^ 51 - 1` cents: the backup format `$#.##` round-trips through
`round(float(raw.strip('$')) * 100)`. -/
theorem parse_price_renderPrice {c : ℤ} (h : c.natAbs ≤ 2 ^ 51 - 1) :
    parse_price (renderPrice c) = some c := by
  have hR := renderCents_eq h
  by_cases hc : c < 0
  · have hneg : renderNeg c = true := renderNeg_true hc
    have hbody := parseUnsigned_renderPrice_body c.natAbs
    have hdata : (renderPrice c).data =
        '$' :: '-' :: (natToDigits (c.natAbs / 100) ++ '.' :: pad2 (c.natAbs % 100)) := by
      rw [renderPrice, hR, hneg]
      rfl
    have hstrip : stripDollar (renderPrice c).data =
        '-' :: (natToDigits (c.natAbs / 100) ++ '.' :: pad2 (c.natAbs % 100)) := by
      rw [hdata]
      exact stripDollar_cons_dollar (by
        intro x hx
        rcases List.mem_cons.mp hx with hx1 | hx1
        · rw [hx1]; decide
        · exact body_ne_dollar c.natAbs x hx1)
    rw [parse_price, hstrip, parseFloat_neg, hbody]
    show some (roundHalfEvenRat (toDouble (toDouble
      (((-((c.natAbs : ℤ)) : ℤ) : ℚ) / 10 ^ (2 : ℕ)) * 100))) = some c
    rw [show ((-((c.natAbs : ℤ)) : ℤ) : ℚ) / 10 ^ (2 : ℕ) = (c : ℚ) / 100 by
      rw [show (-((c.natAbs : ℤ)) : ℤ) = c by omega]; norm_num]
    rw [double_mul100_round h]
  · have hneg : renderNeg c = false := renderNeg_false (not_lt.mp hc)
    have hbody := parseUnsigned_renderPrice_body c.natAbs
    have hdata : (renderPrice c).data =
        '$' :: (natToDigits (c.natAbs / 100) ++ '.' :: pad2 (c.natAbs % 100)) := by
      rw [renderPrice, hR, hneg]
      rfl
    have hstrip : stripDollar (renderPrice c).data =
        natToDigits (c.natAbs / 100) ++ '.' :: pad2 (c.natAbs % 100) := by
      rw [hdata]
      exact stripDollar_cons_dollar (body_ne_dollar c.natAbs)
    obtain ⟨d, t, hdt⟩ := List.exists_cons_of_ne_nil (natToDigits_ne_nil (c.natAbs / 100))
    have hdig : isDigit d = true := by
      have := natToDigits_all_digit (c.natAbs / 100)
      rw [hdt] at this
      exact List.all_eq_true.mp this d (List.mem_cons_self _ _)
    rw [parse_price, hstrip, hdt, List.cons_append, parseFloat_of_digit_head hdig,
      ← List.cons_append, ← hdt, hbody]
    show some (roundHalfEvenRat (toDouble (toDouble
      ((((c.natAbs : ℤ) : ℤ) : ℚ) / 10 ^ (2 : ℕ)) * 100))) = some c
    rw [show (((c.natAbs : ℤ) : ℤ) : ℚ) / 10 ^ (2 : ℕ) = (c : ℚ) / 100 by
      rw [show ((c.natAbs : ℤ) : ℤ) = c by omega]; norm_num]
    rw [double_mul100_round h]

/-- A row of the `Product` table: auto-increment id, unique name, integer
quantity, integer price in cents, and a datetime. -/
structure Product where
  product_id : ℕ
  product_name : String
  product_quantity : ℤ
  product_price : ℤ
  date_updated : PyDateTime
  deriving DecidableEq, Repr

/-- The `Product` table, as the ordered (by insertion, hence by id) list of
its live rows; rows are never deleted. -/
abbrev Store := List Product

/-- A CSV row after the parsing done by `add_csv` lines 52-53 (date, price)
and the `int(...)` conversion of the quantity. -/
structure ParsedRow where
  product_name : String
  product_quantity : ℤ
  product_price : ℤ
  date_updated : PyDateTime
  deriving DecidableEq, Repr

/-- A raw CSV row as read by `csv.DictReader` (all fields strings). -/
structure RawRow where
  product_name : String
  product_quantity : String
  product_price : String
  date_updated : String
  deriving DecidableEq, Repr

/-- The next value of the auto-increment `product_id` (SQLite rowid:
one more than the largest existing id). -/
def nextId (s : Store) : ℕ := (s.map Product.product_id).foldr max 0 + 1

/-- `add_entry` (lines 32-37): `Product.create` with the row's fields.  The
unique constraint on `product_name` makes it raise `IntegrityError`
(modelled as `none`) when the name already exists. -/
def add_entry (s : Store) (r : ParsedRow) : Option Store :=
  if ∃ p ∈ s, p.product_name = r.product_name then none
  else some (s ++ [⟨nextId s, r.product_name, r.product_quantity, r.product_price,
    r.date_updated⟩])

/-- `Product.get(Product.product_name == name)`: first row with that name. -/
def findByName : Store → String → Option Product
  | [], _ => none
  | p :: t, n => if p.product_name = n then some p else findByName t n

/-- `update_duplicate` (lines 40-44): overwrite quantity, price and
`date_updated` of the fetched row (saved by primary key); name and id are
not touched. -/
def update_duplicate (s : Store) (r : ParsedRow) (existing : Product) : Store :=
  s.map fun q =>
    if q.product_id = existing.product_id then
      { q with product_quantity := r.product_quantity,
               product_price := r.product_price,
               date_updated := r.date_updated }
    else q

/-- The duplicate-reconciliation step of `add_csv` (lines 54-61): try
`add_entry`; on `IntegrityError` fetch the existing row by name and
overwrite it iff `row['date_updated'] >= existing.date_updated`, else do
nothing. -/
def reconcile (s : Store) (r : ParsedRow) : Store :=
  match add_entry s r with
  | some s' => s'
  | none =>
    match findByName s r.product_name with
    | some existing =>
      if PyDateTime.Le existing.date_updated r.date_updated then
        update_duplicate s r existing
      else s
    | none => s

/-- Row parsing of `add_csv`: `strptime` on the date (line 52), then
`round(float(...strip('$'))*100)` on the price (line 53), then `int(...)` on
the quantity (inside `add_entry`/`update_duplicate`).  Any failure raises
`ValueError`, which line 54's `except IntegrityError` does not catch. -/
def parseRow (r : RawRow) : Option ParsedRow :=
  (strptimeMDY r.date_updated).bind fun d =>
    (parse_price r.product_price).bind fun c =>
      (pyInt r.product_quantity).map fun q => ⟨r.product_name, q, c, d⟩

/-- Result of a bulk import: either the whole file was processed, or an
uncaught `ValueError` aborted it, leaving the store as it was at that row. -/
inductive ImportResult where
  | completed (s : Store)
  | aborted (s : Store)
  deriving DecidableEq, Repr

/-- The store state carried by an import result. -/
def storeOf : ImportResult → Store
  | .completed s => s
  | .aborted s => s

/-- `add_csv` (lines 47-61) over the list of CSV data rows: parse each row
and reconcile it; a row whose date or price (or quantity) fails to parse
raises `ValueError` out of the loop, aborting the import. -/
def add_csv (s : Store) : List RawRow → ImportResult
  | [] => .completed s
  | r :: rest =>
    match parseRow r with
    | none => .aborted s
    | some pr => add_csv (reconcile s pr) rest

/-- The storage effect of one accepted record in `add_new_product`
(lines 160-189): `add_entry`, and on `IntegrityError` the update happens only
when the entered (midnight) date is `>=` the existing one and the user
confirms with `y`. -/
def interactive_add (s : Store) (name : String) (qty price : ℤ) (now : PyDateTime)
    (confirm : Bool) : Store :=
  match add_entry s ⟨name, qty, price, now⟩ with
  | some s' => s'
  | none =>
    match findByName s name with
    | some existing =>
      if PyDateTime.Le existing.date_updated now then
        if confirm then update_duplicate s ⟨name, qty, price, now⟩ existing else s
      else s
    | none => s

/-- One line of `backup_inventory.csv` (fieldnames of lines 198-203). -/
structure BackupRow where
  product_name : String
  product_price : String
  product_quantity : String
  date_updated : String
  deriving DecidableEq, Repr

/-- The backup line written for one product (lines 207-212). -/
def backupRow (p : Product) : BackupRow :=
  ⟨p.product_name, renderPrice p.product_price, intToStr p.product_quantity,
    strftimeMDY p.date_updated⟩

/-- `backup_database` (lines 193-214): one CSV line per row of
`Product.select()`, in table order. -/
def backup_database (s : Store) : List BackupRow := s.map backupRow

/-- Reading a backup line back through `csv.DictReader` for re-import. -/
def backupToRaw (b : BackupRow) : RawRow :=
  ⟨b.product_name, b.product_quantity, b.product_price, b.date_updated⟩

/-- Invariant: one live record per name (the unique constraint of line 17). -/
def uniqueNames (s : Store) : Prop := (s.map Product.product_name).Nodup

/-- Invariant: ids are unique (primary key). -/
def uniqueIds (s : Store) : Prop := (s.map Product.product_id).Nodup

/-- Invariant: the table order is ascending id order. -/
def idsAscending (s : Store) : Prop := (s.map Product.product_id).Chain' (· < ·)

instance (s : Store) : Decidable (uniqueNames s) :=
  inferInstanceAs (Decidable (s.map Product.product_name).Nodup)

instance (s : Store) : Decidable (uniqueIds s) :=
  inferInstanceAs (Decidable (s.map Product.product_id).Nodup)

/-- Executable strict-ascending check on a list of naturals. -/
def chainLtB : List ℕ → Bool
  | [] => true
  | [_] => true
  | a :: b :: t => decide (a < b) && chainLtB (b :: t)

theorem chainLtB_iff : ∀ l : List ℕ, chainLtB l = true ↔ l.Chain' (· < ·)
  | [] => by simp [chainLtB]
  | [_] => by simp [chainLtB]
  | a :: b :: t => by
    rw [chainLtB, List.chain'_cons, Bool.and_eq_true, decide_eq_true_eq,
      chainLtB_iff (b :: t)]

instance (s : Store) : Decidable (idsAscending s) :=
  decidable_of_iff (chainLtB (s.map Product.product_id) = true)
    (chainLtB_iff (s.map Product.product_id))

instance (d : PyDateTime) : Decidable (ValidDate d) :=
  inferInstanceAs (Decidable (_ ∧ _ ∧ _ ∧ _ ∧ _ ∧ _))

instance (d : PyDateTime) : Decidable (Midnight d) :=
  inferInstanceAs (Decidable (_ ∧ _ ∧ _ ∧ _))

theorem findByName_eq_self {s : Store} {p : Product} (hu : uniqueNames s) (hp : p ∈ s) :
    findByName s p.product_name = some p := by
  induction s with
  | nil => cases hp
  | cons q t ih =>
    have hu' : uniqueNames t := by
      unfold uniqueNames at hu ⊢
      exact (List.nodup_cons.mp hu).2
    rcases List.mem_cons.mp hp with rfl | hpt
    · rw [findByName, if_pos rfl]
    · by_cases hq : q.product_name = p.product_name
      · exfalso
        have : q.product_name ∈ t.map Product.product_name :=
          hq ▸ List.mem_map_of_mem Product.product_name hpt
        exact (List.nodup_cons.mp hu).1 this
      · rw [findByName, if_neg hq]
        exact ih hu' hpt

theorem map_eq_self_of_forall {α : Type} {l : List α} {f : α → α}
    (h : ∀ a ∈ l, f a = a) : l.map f = l := by
  induction l with
  | nil => rfl
  | cons a t ih =>
    rw [List.map_cons, h a (List.mem_cons_self _ _),
      ih (fun b hb => h b (List.mem_cons_of_mem _ hb))]

theorem product_update_self (p : Product) :
    ({ p with product_quantity := p.product_quantity,
              product_price := p.product_price,
              date_updated := p.date_updated } : Product) = p := by
  cases p
  rfl

theorem add_entry_none_of_mem {s : Store} {r : ParsedRow} {p : Product} (hp : p ∈ s)
    (hname : r.product_name = p.product_name) : add_entry s r = none := by
  unfold add_entry
  rw [if_pos ⟨p, hp, hname.symm⟩]

/-- `reconcile` when the name exists and the incoming date is `>=`:
the existing row is overwritten through `update_duplicate`. -/
theorem reconcile_update {s : Store} {r : ParsedRow} {p : Product}
    (hu : uniqueNames s) (hp : p ∈ s) (hname : r.product_name = p.product_name)
    (hle : PyDateTime.Le p.date_updated r.date_updated) :
    reconcile s r = update_duplicate s r p := by
  unfold reconcile
  rw [add_entry_none_of_mem hp hname, hname, findByName_eq_self hu hp]
  show (if PyDateTime.Le p.date_updated r.date_updated then update_duplicate s r p else s) = _
  rw [if_pos hle]

/-- `reconcile` when the name exists and the incoming date is older:
nothing happens. -/
theorem reconcile_skip {s : Store} {r : ParsedRow} {p : Product}
    (hu : uniqueNames s) (hp : p ∈ s) (hname : r.product_name = p.product_name)
    (hgt : ¬ PyDateTime.Le p.date_updated r.date_updated) :
    reconcile s r = s := by
  unfold reconcile
  rw [add_entry_none_of_mem hp hname, hname, findByName_eq_self hu hp]
  show (if PyDateTime.Le p.date_updated r.date_updated then update_duplicate s r p else s) = _
  rw [if_neg hgt]

theorem pyInt_intToStr (z : ℤ) : pyInt (intToStr z) = some z :=
  pyIntChars_intToChars z

theorem midnight_eta {d : PyDateTime} (hm : Midnight d) :
    (⟨d.year, d.month, d.day, 0, 0, 0, 0⟩ : PyDateTime) = d := by
  obtain ⟨h1, h2, h3, h4⟩ := hm
  cases d
  simp_all

/-- Re-parsing a backup line recovers the stored record exactly, provided the
date's year has 4 digits and the price magnitude stays within `2 ^ 51 - 1`
cents (where the float pipeline is exact). -/
theorem parseRow_backup (p : Product) (hv : ValidDate p.date_updated)
    (hm : Midnight p.date_updated) (hyr : 1000 ≤ p.date_updated.year)
    (hpr : p.product_price.natAbs ≤ 2 ^ 51 - 1) :
    parseRow (backupToRaw (backupRow p)) =
      some ⟨p.product_name, p.product_quantity, p.product_price, p.date_updated⟩ := by
  have hdate : strptimeMDY (strftimeMDY p.date_updated) = some p.date_updated := by
    rw [strptime_strftime _ hv hyr, midnight_eta hm]
  show parseRow ⟨p.product_name, intToStr p.product_quantity, renderPrice p.product_price,
    strftimeMDY p.date_updated⟩ = _
  simp [parseRow, hdate, parse_price_renderPrice hpr, pyInt_intToStr]

theorem update_duplicate_map_name (s : Store) (r : ParsedRow) (e : Product) :
    (update_duplicate s r e).map Product.product_name = s.map Product.product_name := by
  unfold update_duplicate
  rw [List.map_map]
  apply List.map_congr_left
  intro q _
  show (if q.product_id = e.product_id then _ else q).product_name = q.product_name
  split <;> rfl

theorem update_duplicate_map_id (s : Store) (r : ParsedRow) (e : Product) :
    (update_duplicate s r e).map Product.product_id = s.map Product.product_id := by
  unfold update_duplicate
  rw [List.map_map]
  apply List.map_congr_left
  intro q _
  show (if q.product_id = e.product_id then _ else q).product_id = q.product_id
  split <;> rfl

theorem le_foldr_max (l : List ℕ) : ∀ x ∈ l, x ≤ l.foldr max 0 := by
  induction l with
  | nil => intro x hx; cases hx
  | cons a t ih =>
    intro x hx
    rcases List.mem_cons.mp hx with rfl | hxt
    · exact le_max_left _ _
    · exact le_trans (ih x hxt) (le_max_right _ _)

theorem lt_nextId {s : Store} {p : Product} (hp : p ∈ s) : p.product_id < nextId s := by
  unfold nextId
  have := le_foldr_max (s.map Product.product_id) p.product_id
    (List.mem_map_of_mem Product.product_id hp)
  omega

theorem add_entry_eq_append {s : Store} {r : ParsedRow} {s' : Store}
    (h : add_entry s r = some s') :
    s' = s ++ [⟨nextId s, r.product_name, r.product_quantity, r.product_price,
      r.date_updated⟩] ∧ ¬ ∃ p ∈ s, p.product_name = r.product_name := by
  unfold add_entry at h
  split at h
  · cases h
  · exact ⟨(Option.some_injective _ h).symm, by assumption⟩

theorem uniqueNames_reconcile (s : Store) (r : ParsedRow) (hu : uniqueNames s) :
    uniqueNames (reconcile s r) := by
  unfold reconcile
  split
  · next s' hadd =>
    obtain ⟨rfl, hnone⟩ := add_entry_eq_append hadd
    unfold uniqueNames at hu ⊢
    rw [List.map_append, List.nodup_append]
    refine ⟨hu, List.nodup_singleton _, ?_⟩
    intro n hn hn1
    rcases List.mem_map.mp hn with ⟨p, hp, hpn⟩
    have : n = r.product_name := by simpa using hn1
    exact hnone ⟨p, hp, by rw [hpn, this]⟩
  · split
    · split
      · unfold uniqueNames
        rw [update_duplicate_map_name]
        exact hu
      · exact hu
    · exact hu

theorem uniqueIds_reconcile (s : Store) (r : ParsedRow) (hid : uniqueIds s) :
    uniqueIds (reconcile s r) := by
  unfold reconcile
  split
  · next s' hadd =>
    obtain ⟨rfl, -⟩ := add_entry_eq_append hadd
    unfold uniqueIds at hid ⊢
    rw [List.map_append, List.nodup_append]
    refine ⟨hid, List.nodup_singleton _, ?_⟩
    intro n hn hn1
    rcases List.mem_map.mp hn with ⟨p, hp, hpn⟩
    have hlt : p.product_id < nextId s := lt_nextId hp
    have : n = nextId s := by simpa using hn1
    omega
  · split
    · split
      · unfold uniqueIds
        rw [update_duplicate_map_id]
        exact hid
      · exact hid
    · exact hid

theorem idsAscending_reconcile (s : Store) (r : ParsedRow) (ha : idsAscending s) :
    idsAscending (reconcile s r) := by
  unfold reconcile
  split
  · next s' hadd =>
    obtain ⟨rfl, -⟩ := add_entry_eq_append hadd
    unfold idsAscending at ha ⊢
    rw [List.map_append, List.chain'_append]
    refine ⟨ha, List.chain'_singleton _, ?_⟩
    intro x hx y hy
    have hxmem : x ∈ s.map Product.product_id := by
      rcases List.mem_getLast?_eq_getLast hx with ⟨hne, rfl⟩
      exact List.getLast_mem hne
    rcases List.mem_map.mp hxmem with ⟨p, hp, hpx⟩
    have hlt : p.product_id < nextId s := lt_nextId hp
    have hym : nextId s = y := by simpa using hy
    omega
  · split
    · split
      · unfold idsAscending
        rw [update_duplicate_map_id]
        exact ha
      · exact ha
    · exact ha

theorem uniqueNames_add_csv (s : Store) (rows : List RawRow) (hu : uniqueNames s) :
    uniqueNames (storeOf (add_csv s rows)) := by
  induction rows generalizing s with
  | nil => exact hu
  | cons r rest ih =>
    rw [add_csv]
    cases hpr : parseRow r with
    | none => exact hu
    | some pr => exact ih (reconcile s pr) (uniqueNames_reconcile s pr hu)

theorem uniqueNames_interactive_add (s : Store) (name : String) (qty price : ℤ)
    (now : PyDateTime) (confirm : Bool) (hu : uniqueNames s) :
    uniqueNames (interactive_add s name qty price now confirm) := by
  unfold interactive_add
  split
  · next s' hadd =>
    obtain ⟨rfl, hnone⟩ := add_entry_eq_append hadd
    unfold uniqueNames at hu ⊢
    rw [List.map_append, List.nodup_append]
    refine ⟨hu, List.nodup_singleton _, ?_⟩
    intro n hn hn1
    rcases List.mem_map.mp hn with ⟨p, hp, hpn⟩
    have : n = name := by simpa using hn1
    exact hnone ⟨p, hp, by rw [hpn, this]⟩
  · split
    · split
      · split
        · unfold uniqueNames
          rw [update_duplicate_map_name]
          exact hu
        · exact hu
      · exact hu
    · exact hu

/-- Reconciling a record identical to a stored one leaves the store
unchanged (the `>=` branch overwrites it with its own values). -/
theorem reconcile_self {s : Store} {p : Product} (hu : uniqueNames s) (hid : uniqueIds s)
    (hp : p ∈ s) :
    reconcile s ⟨p.product_name, p.product_quantity, p.product_price, p.date_updated⟩ = s := by
  rw [reconcile_update hu hp rfl (PyDateTime.Le.refl _)]
  unfold update_duplicate
  apply map_eq_self_of_forall
  intro q hq
  by_cases h : q.product_id = p.product_id
  · have hqp : q = p := List.inj_on_of_nodup_map hid hq hp h
    subst hqp
    rw [if_pos h]
  · rw [if_neg h]

theorem add_csv_self (s : Store) (hu : uniqueNames s) (hid : uniqueIds s) :
    ∀ l : List Product, (∀ p ∈ l, p ∈ s) →
      (∀ p ∈ l, ValidDate p.date_updated ∧ Midnight p.date_updated) →
      (∀ p ∈ l, 1000 ≤ p.date_updated.year) →
      (∀ p ∈ l, p.product_price.natAbs ≤ 2 ^ 51 - 1) →
      add_csv s (l.map fun p => backupToRaw (backupRow p)) = .completed s := by
  intro l
  induction l with
  | nil => intro _ _ _ _; rfl
  | cons p t ih =>
    intro hmem hdates hyrs hprs
    rw [List.map_cons, add_csv,
      parseRow_backup p (hdates p (List.mem_cons_self _ _)).1 (hdates p (List.mem_cons_self _ _)).2
        (hyrs p (List.mem_cons_self _ _)) (hprs p (List.mem_cons_self _ _))]
    show add_csv (reconcile s _) _ = _
    rw [reconcile_self hu hid (hmem p (List.mem_cons_self _ _))]
    exact ih (fun q hq => hmem q (List.mem_cons_of_mem _ hq))
      (fun q hq => hdates q (List.mem_cons_of_mem _ hq))
      (fun q hq => hyrs q (List.mem_cons_of_mem _ hq))
      (fun q hq => hprs q (List.mem_cons_of_mem _ hq))

theorem add_csv_aborts (pre : List RawRow) :
    ∀ (s : Store) (r : RawRow) (rest : List RawRow),
      (∀ x ∈ pre, (parseRow x).isSome = true) → parseRow r = none →
      add_csv s (pre ++ r :: rest) =
        .aborted ((pre.filterMap parseRow).foldl reconcile s) := by
  induction pre with
  | nil =>
    intro s r rest _ hr
    simp only [List.nil_append, List.filterMap_nil, List.foldl_nil, add_csv, hr]
  | cons x pre' ih =>
    intro s r rest hpre hr
    have hx := hpre x (List.mem_cons_self _ _)
    rcases Option.isSome_iff_exists.mp hx with ⟨px, hpx⟩
    simp only [List.cons_append, add_csv, hpx, List.filterMap_cons, List.foldl_cons]
    exact ih (reconcile s px) r rest (fun y hy => hpre y (List.mem_cons_of_mem _ hy)) hr

theorem daysInMonth_le (y m : ℕ) : daysInMonth y m ≤ 31 := by
  unfold daysInMonth
  split
  · split <;> omega
  · split <;> omega

/-- C1: if an incoming record has the name of an existing record and a
`date_updated` that is `>=` the existing one (ties included), reconciliation
overwrites the existing record's quantity, price and `date_updated` with the
incoming values via `update_duplicate`. -/
theorem spec_c1 (s : Store) (r : ParsedRow) (p : Product)
    (hu : uniqueNames s) (hp : p ∈ s) (hname : r.product_name = p.product_name)
    (hle : PyDateTime.Le p.date_updated r.date_updated) :
    reconcile s r = update_duplicate s r p ∧
      ({ p with product_quantity := r.product_quantity,
                product_price := r.product_price,
                date_updated := r.date_updated } : Product) ∈ reconcile s r := by
  refine ⟨reconcile_update hu hp hname hle, ?_⟩
  rw [reconcile_update hu hp hname hle]
  unfold update_duplicate
  have h2 := List.mem_map_of_mem (fun q : Product =>
    if q.product_id = p.product_id then
      { q with product_quantity := r.product_quantity,
               product_price := r.product_price,
               date_updated := r.date_updated }
    else q) hp
  simpa using h2

/-- Demo product for the C1 witness. -/
def c1Prod : Product := ⟨1, "Widget", 10, 500, ⟨2020, 1, 1, 0, 0, 0, 0⟩⟩

/-- Demo store for the C1 witness. -/
def c1Store : Store := [c1Prod]

/-- Demo incoming row for the C1 witness — same name, same timestamp. -/
def c1Row : ParsedRow := ⟨"Widget", 20, 600, ⟨2020, 1, 1, 0, 0, 0, 0⟩⟩

/-- C1 witness: equal timestamps (the tie case) — the incoming record wins. -/
theorem spec_c1_witness :
    uniqueNames c1Store ∧ c1Prod ∈ c1Store ∧
    c1Row.product_name = c1Prod.product_name ∧
    PyDateTime.Le c1Prod.date_updated c1Row.date_updated ∧
    (reconcile c1Store c1Row = update_duplicate c1Store c1Row c1Prod ∧
      (⟨1, "Widget", 20, 600, ⟨2020, 1, 1, 0, 0, 0, 0⟩⟩ : Product) ∈ reconcile c1Store c1Row) :=
  ⟨by decide, by decide, by decide, by decide,
    spec_c1 c1Store c1Row c1Prod (by decide) (by decide) (by decide) (by decide)⟩

/-- C3: an incoming record whose `date_updated` is strictly older than the
existing record of the same name leaves the store completely unchanged. -/
theorem spec_c3 (s : Store) (r : ParsedRow) (p : Product)
    (hu : uniqueNames s) (hp : p ∈ s) (hname : r.product_name = p.product_name)
    (hlt : PyDateTime.Lt r.date_updated p.date_updated) :
    reconcile s r = s :=
  reconcile_skip hu hp hname (PyDateTime.not_le_of_lt hlt)

/-- Demo product for the C3 witness. -/
def c3Prod : Product := ⟨1, "Widget", 10, 500, ⟨2020, 5, 5, 0, 0, 0, 0⟩⟩

/-- Demo store for the C3 witness. -/
def c3Store : Store := [c3Prod]

/-- Demo incoming row for the C3 witness — same name, one day older. -/
def c3Row : ParsedRow := ⟨"Widget", 20, 600, ⟨2020, 5, 4, 0, 0, 0, 0⟩⟩

/-- C3 witness: a strictly older incoming record is discarded unchanged. -/
theorem spec_c3_witness :
    uniqueNames c3Store ∧ c3Prod ∈ c3Store ∧
    c3Row.product_name = c3Prod.product_name ∧
    PyDateTime.Lt c3Row.date_updated c3Prod.date_updated ∧
    reconcile c3Store c3Row = c3Store :=
  ⟨by decide, by decide, by decide, by decide,
    spec_c3 c3Store c3Row c3Prod (by decide) (by decide) (by decide) (by decide)⟩

/-- C4: an incoming record with the name of an existing record and a strictly
newer `date_updated` leaves the stored record carrying exactly the incoming
quantity, price and date with its name and id unchanged, and every other
record untouched. -/
theorem spec_c4 (s : Store) (r : ParsedRow) (p : Product)
    (hu : uniqueNames s) (hp : p ∈ s) (hname : r.product_name = p.product_name)
    (hlt : PyDateTime.Lt p.date_updated r.date_updated) :
    reconcile s r = update_duplicate s r p ∧
      ({ p with product_quantity := r.product_quantity,
                product_price := r.product_price,
                date_updated := r.date_updated } : Product) ∈ reconcile s r ∧
      ∀ q ∈ s, q.product_id ≠ p.product_id → q ∈ reconcile s r := by
  have hle := PyDateTime.le_of_lt hlt
  have hrec := reconcile_update hu hp hname hle
  refine ⟨hrec, ?_, ?_⟩
  · rw [hrec]
    unfold update_duplicate
    have h2 := List.mem_map_of_mem (fun q : Product =>
      if q.product_id = p.product_id then
        { q with product_quantity := r.product_quantity,
                 product_price := r.product_price,
                 date_updated := r.date_updated }
      else q) hp
    simpa using h2
  · intro q hq hne
    rw [hrec]
    unfold update_duplicate
    have h2 := List.mem_map_of_mem (fun q : Product =>
      if q.product_id = p.product_id then
        { q with product_quantity := r.product_quantity,
                 product_price := r.product_price,
                 date_updated := r.date_updated }
      else q) hq
    simp only [if_neg hne] at h2
    exact h2

/-- Demo product for the C4 witness. -/
def c4Prod : Product := ⟨1, "Widget", 10, 500, ⟨2020, 1, 1, 0, 0, 0, 0⟩⟩

/-- Demo store for the C4 witness — a second, unrelated record is present. -/
def c4Store : Store := [c4Prod, ⟨2, "Gadget", 3, 250, ⟨2021, 6, 1, 0, 0, 0, 0⟩⟩]

/-- Demo incoming row for the C4 witness — same name, one day newer. -/
def c4Row : ParsedRow := ⟨"Widget", 20, 600, ⟨2020, 1, 2, 0, 0, 0, 0⟩⟩

/-- C4 witness: a strictly newer incoming record overwrites in place, and an
unrelated record is untouched. -/
theorem spec_c4_witness :
    uniqueNames c4Store ∧ c4Prod ∈ c4Store ∧
    c4Row.product_name = c4Prod.product_name ∧
    PyDateTime.Lt c4Prod.date_updated c4Row.date_updated ∧
    (reconcile c4Store c4Row = update_duplicate c4Store c4Row c4Prod ∧
      (⟨1, "Widget", 20, 600, ⟨2020, 1, 2, 0, 0, 0, 0⟩⟩ : Product) ∈ reconcile c4Store c4Row ∧
      ∀ q ∈ c4Store, q.product_id ≠ c4Prod.product_id → q ∈ reconcile c4Store c4Row) :=
  ⟨by decide, by decide, by decide, by decide,
    spec_c4 c4Store c4Row c4Prod (by decide) (by decide) (by decide) (by decide)⟩

/-- C2 (amended): a row whose price or date fails to parse raises an uncaught
`ValueError` that aborts the whole import at that row — the rows before it
are ingested, the failing row and every later row are not. -/
theorem spec_c2 (s : Store) (pre : List RawRow) (r : RawRow) (rest : List RawRow)
    (hpre : ∀ x ∈ pre, (parseRow x).isSome = true) (hr : parseRow r = none) :
    add_csv s (pre ++ r :: rest) =
      .aborted ((pre.filterMap parseRow).foldl reconcile s) :=
  add_csv_aborts pre s r rest hpre hr

/-- C2 witness: a batch with a malformed third row aborts there; the rows
already ingested are the reconciled prefix. -/
theorem spec_c2_witness :
    (∀ x ∈ [(⟨"A", "1", "$1.00", "01/01/2020"⟩ : RawRow),
        ⟨"B", "2", "$2.00", "01/02/2020"⟩], (parseRow x).isSome = true) ∧
    parseRow ⟨"C", "3", "two dollars", "01/03/2020"⟩ = none ∧
    add_csv []
        ([(⟨"A", "1", "$1.00", "01/01/2020"⟩ : RawRow), ⟨"B", "2", "$2.00", "01/02/2020"⟩] ++
          ⟨"C", "3", "two dollars", "01/03/2020"⟩ ::
            [(⟨"D", "4", "$4.00", "01/04/2020"⟩ : RawRow), ⟨"E", "5", "$5.00", "01/05/2020"⟩]) =
      .aborted (([(⟨"A", "1", "$1.00", "01/01/2020"⟩ : RawRow),
          ⟨"B", "2", "$2.00", "01/02/2020"⟩].filterMap parseRow).foldl reconcile []) :=
  ⟨by decide, by decide,
    spec_c2 [] _ _ _ (by decide) (by decide)⟩

/-- C2 counterexample to the claim as stated: with a malformed price in row 3
of five rows, the import aborts after rows 1 and 2 — rows 4 and 5 are never
ingested, contradicting "only that row is skipped and importing continues". -/
theorem spec_c2_counterexample :
    add_csv []
        [⟨"A", "1", "$1.00", "01/01/2020"⟩, ⟨"B", "2", "$2.00", "01/02/2020"⟩,
         ⟨"C", "3", "two dollars", "01/03/2020"⟩, ⟨"D", "4", "$4.00", "01/04/2020"⟩,
         ⟨"E", "5", "$5.00", "01/05/2020"⟩] =
      .aborted [⟨1, "A", 1, 100, ⟨2020, 1, 1, 0, 0, 0, 0⟩⟩,
        ⟨2, "B", 2, 200, ⟨2020, 1, 2, 0, 0, 0, 0⟩⟩] ∧
    ∀ p ∈ storeOf (add_csv []
        [⟨"A", "1", "$1.00", "01/01/2020"⟩, ⟨"B", "2", "$2.00", "01/02/2020"⟩,
         ⟨"C", "3", "two dollars", "01/03/2020"⟩, ⟨"D", "4", "$4.00", "01/04/2020"⟩,
         ⟨"E", "5", "$5.00", "01/05/2020"⟩]),
      p.product_name ≠ "D" ∧ p.product_name ≠ "E" := by
  decide

/-- C5 (amended): inputs with more than two digits after the decimal point
are rejected only by the interactive add path (`decimal_check` triggers
`InputError` and a re-prompt); the CSV bulk-import path runs no such check —
`round(float(...)*100)` accepts the row. -/
theorem spec_c5 :
    (∀ (dollar : Bool) (ip fp : List Char), ip ≠ [] → ip.all isDigit = true →
      fp.all isDigit = true → 2 < fp.length →
      add_new_product_price_step
        (String.mk ((if dollar then ['$'] else []) ++ (ip ++ '.' :: fp))) = .reprompt) ∧
    (parseRow ⟨"Widget", "1", "$12.345", "01/01/2020"⟩).isSome = true := by
  constructor
  · intro dollar ip fp hne hip hfp hlen
    have hpref : ∀ c ∈ (if dollar then ['$'] else ([] : List Char)), (c != '.') = true := by
      cases dollar with
      | false => intro c hc; simp at hc
      | true =>
        intro c hc
        simp at hc
        subst hc
        decide
    have hall : ∀ c ∈ (if dollar then ['$'] else ([] : List Char)) ++ ip, (c != '.') = true := by
      intro c hc
      rcases List.mem_append.mp hc with h | h
      · exact hpref c h
      · exact all_bne_dot_of_all_digit hip c h
    have hsp := takeWhile_append_stop ((if dollar then ['$'] else []) ++ ip) '.' fp hall
      (by decide)
    have hdata : (String.mk ((if dollar then ['$'] else []) ++ (ip ++ '.' :: fp))).data =
        ((if dollar then ['$'] else []) ++ ip) ++ '.' :: fp := by
      show (if dollar then ['$'] else []) ++ (ip ++ '.' :: fp) = _
      rw [List.append_assoc]
    have hmem : '.' ∈ ((if dollar then ['$'] else ([] : List Char)) ++ ip) ++ '.' :: fp :=
      List.mem_append_right _ (List.mem_cons_self _ _)
    have hdc : decimal_check
        (String.mk ((if dollar then ['$'] else []) ++ (ip ++ '.' :: fp))) = some false := by
      unfold decimal_check
      rw [hdata, if_pos hmem, hsp.2]
      simp only [List.length_cons, Option.some.injEq, decide_eq_false_iff_not]
      omega
    unfold add_new_product_price_step
    rw [hdc]
  · decide

/-- C5 witness: `"$12.345"` (three decimals) is re-prompted interactively. -/
theorem spec_c5_witness :
    (['1', '2'] : List Char) ≠ [] ∧ ['1', '2'].all isDigit = true ∧
    ['3', '4', '5'].all isDigit = true ∧ 2 < ['3', '4', '5'].length ∧
    add_new_product_price_step
      (String.mk ((if true then ['$'] else []) ++ (['1', '2'] ++ '.' :: ['3', '4', '5']))) =
      .reprompt :=
  ⟨by decide, by decide, by decide, by decide,
    spec_c5.1 true ['1', '2'] ['3', '4', '5'] (by decide) (by decide) (by decide) (by decide)⟩

/-- C5 counterexample to the claim as stated: the CSV bulk-import path does
not reject `"$12.345"` — the row parses and a record is stored. -/
theorem spec_c5_counterexample :
    (parseRow ⟨"Widget", "1", "$12.345", "01/01/2020"⟩).isSome = true ∧
    storeOf (add_csv [] [⟨"Widget", "1", "$12.345", "01/01/2020"⟩]) ≠ [] := by
  decide

theorem parse_price_decimal_chars {ip fp : List Char} (hne : ip ≠ [])
    (hip : ip.all isDigit = true) (hfp : fp.all isDigit = true) (hlen : fp.length ≤ 2)
    (hbound : digitsVal ip * 100 + digitsVal fp * 10 ^ (2 - fp.length) ≤ 2 ^ 51 - 1) :
    parse_price (String.mk (ip ++ '.' :: fp)) =
      some ((digitsVal ip * 100 + digitsVal fp * 10 ^ (2 - fp.length) : ℕ) : ℤ) ∧
    parse_price (String.mk ('$' :: (ip ++ '.' :: fp))) =
      some ((digitsVal ip * 100 + digitsVal fp * 10 ^ (2 - fp.length) : ℕ) : ℤ) := by
  have hbody : ∀ x ∈ ip ++ '.' :: fp, x ≠ '$' := by
    intro x hx
    rcases List.mem_append.mp hx with h | h
    · exact (ne_of_isDigit (List.all_eq_true.mp hip x h)).2.2.2.1
    · rcases List.mem_cons.mp h with h | h
      · rw [h]; decide
      · exact (ne_of_isDigit (List.all_eq_true.mp hfp x h)).2.2.2.1
  have hstrip1 : stripDollar (ip ++ '.' :: fp) = ip ++ '.' :: fp := stripDollar_of_ne hbody
  have hstrip2 : stripDollar ('$' :: (ip ++ '.' :: fp)) = ip ++ '.' :: fp :=
    stripDollar_cons_dollar hbody
  obtain ⟨c, t, rfl⟩ := List.exists_cons_of_ne_nil hne
  have hc : isDigit c = true := List.all_eq_true.mp hip c (List.mem_cons_self _ _)
  have hpf : parseFloat ((c :: t) ++ '.' :: fp) = parseUnsigned ((c :: t) ++ '.' :: fp) := by
    rw [List.cons_append, parseFloat_of_digit_head hc, ← List.cons_append]
  have hval := parseUnsigned_decimal hip hfp (Or.inl hne)
  have h2 : 10 ^ (2 - fp.length) * 10 ^ fp.length = 100 := by
    rw [← pow_add, Nat.sub_add_cancel hlen]
    norm_num
  have hnat : (digitsVal (c :: t) * 10 ^ fp.length + digitsVal fp) * 100 =
      (digitsVal (c :: t) * 100 + digitsVal fp * 10 ^ (2 - fp.length)) * 10 ^ fp.length := by
    calc (digitsVal (c :: t) * 10 ^ fp.length + digitsVal fp) * 100
        = digitsVal (c :: t) * 100 * 10 ^ fp.length + digitsVal fp * 100 := by ring
      _ = digitsVal (c :: t) * 100 * 10 ^ fp.length +
          digitsVal fp * (10 ^ (2 - fp.length) * 10 ^ fp.length) := by rw [h2]
      _ = (digitsVal (c :: t) * 100 + digitsVal fp * 10 ^ (2 - fp.length)) *
          10 ^ fp.length := by ring
  have hq : (((digitsVal (c :: t) * 10 ^ fp.length + digitsVal fp : ℕ) : ℤ) : ℚ) /
      10 ^ fp.length =
      (((digitsVal (c :: t) * 100 + digitsVal fp * 10 ^ (2 - fp.length) : ℕ) : ℤ) : ℚ) /
        100 := by
    rw [div_eq_div_iff (by positivity : (0 : ℚ) < (10 : ℚ) ^ fp.length).ne'
      (by norm_num : (100 : ℚ) ≠ 0)]
    push_cast
    exact_mod_cast hnat
  have habs : (((digitsVal (c :: t) * 100 + digitsVal fp * 10 ^ (2 - fp.length) : ℕ) : ℤ)).natAbs
      ≤ 2 ^ 51 - 1 := by
    rw [Int.natAbs_ofNat]
    exact hbound
  constructor
  · unfold parse_price
    rw [show (String.mk ((c :: t) ++ '.' :: fp)).data = (c :: t) ++ '.' :: fp from rfl,
      hstrip1, hpf, hval]
    show some (roundHalfEvenRat (toDouble (toDouble
      ((((digitsVal (c :: t) * 10 ^ fp.length + digitsVal fp : ℕ) : ℤ) : ℚ) /
        10 ^ fp.length) * 100))) = _
    rw [hq, double_mul100_round habs]
  · unfold parse_price
    rw [show (String.mk ('$' :: ((c :: t) ++ '.' :: fp))).data =
        '$' :: ((c :: t) ++ '.' :: fp) from rfl, hstrip2, hpf, hval]
    show some (roundHalfEvenRat (toDouble (toDouble
      ((((digitsVal (c :: t) * 10 ^ fp.length + digitsVal fp : ℕ) : ℤ) : ℚ) /
        10 ^ fp.length) * 100))) = _
    rw [hq, double_mul100_round habs]

/-- C6 (amended): a price string with at most two decimal digits (with or
without a leading `'$'`) parses to the mathematically exact number of cents
whenever that exact value stays within `2 ^ 51 - 1` cents, where the binary64
pipeline `round(float(s) * 100)` is provably exact; in particular `"$12.3"`
gives 1230 and `"12.00"` gives 1200.  Beyond that range the claim is false:
see the counterexample. -/
theorem spec_c6 :
    (∀ (dollar : Bool) (ip fp : List Char), ip ≠ [] → ip.all isDigit = true →
      fp.all isDigit = true → fp.length ≤ 2 →
      digitsVal ip * 100 + digitsVal fp * 10 ^ (2 - fp.length) ≤ 2 ^ 51 - 1 →
      parse_price (String.mk ((if dollar then ['$'] else []) ++ (ip ++ '.' :: fp))) =
        some ((digitsVal ip * 100 + digitsVal fp * 10 ^ (2 - fp.length) : ℕ) : ℤ)) ∧
    parse_price "$12.3" = some 1230 ∧ parse_price "12.00" = some 1200 := by
  refine ⟨?_, by decide, by decide⟩
  intro dollar ip fp hne hip hfp hlen hbound
  cases dollar with
  | false => exact (parse_price_decimal_chars hne hip hfp hlen hbound).1
  | true => exact (parse_price_decimal_chars hne hip hfp hlen hbound).2

/-- C6 witness: `"5.25"` parses to exactly 525 cents. -/
theorem spec_c6_witness :
    (['5'] : List Char) ≠ [] ∧ ['5'].all isDigit = true ∧
    (['2', '5'] : List Char).all isDigit = true ∧ (['2', '5'] : List Char).length ≤ 2 ∧
    digitsVal ['5'] * 100 + digitsVal ['2', '5'] *
      10 ^ (2 - (['2', '5'] : List Char).length) ≤ 2 ^ 51 - 1 ∧
    parse_price (String.mk ((if false then ['$'] else []) ++ (['5'] ++ '.' :: ['2', '5']))) =
      some ((digitsVal ['5'] * 100 + digitsVal ['2', '5'] *
        10 ^ (2 - (['2', '5'] : List Char).length) : ℕ) : ℤ) :=
  ⟨by decide, by decide, by decide, by decide, by decide,
    spec_c6.1 false ['5'] ['2', '5'] (by decide) (by decide) (by decide) (by decide) (by decide)⟩

/-- C6 counterexample to the claim as stated: the two-decimal input
`"92860053598386.57"` does not parse to its exact cent value, because
`float("92860053598386.57") * 100` rounds to a binary64 just below the exact
product and `round` then returns 9286005359838656, one cent short of the
exact 9286005359838657. -/
theorem spec_c6_counterexample :
    parse_price "92860053598386.57" = some 9286005359838656 ∧
    (9286005359838656 : ℤ) ≠ 92860053598386 * 100 + 57 := by
  exact ⟨by decide, by decide⟩

/-- C7 (amended): exporting via the backup action and re-importing the
produced file through the bulk importer leaves the store identical — but only
on states whose prices stay within the float-exact range of `2 ^ 51 - 1` cents
and whose years have 4 digits.  (Hypotheses are the reachable-state
invariants — unique names/ids, valid midnight dates — plus those two bounds;
both are genuinely needed: see the counterexample.) -/
theorem spec_c7 (s : Store) (hu : uniqueNames s) (hid : uniqueIds s)
    (hdates : ∀ p ∈ s, ValidDate p.date_updated ∧ Midnight p.date_updated)
    (hyrs : ∀ p ∈ s, 1000 ≤ p.date_updated.year)
    (hprs : ∀ p ∈ s, p.product_price.natAbs ≤ 2 ^ 51 - 1) :
    add_csv s ((backup_database s).map backupToRaw) = .completed s := by
  have hmap : (backup_database s).map backupToRaw =
      s.map fun p => backupToRaw (backupRow p) := by
    unfold backup_database
    rw [List.map_map]
    rfl
  rw [hmap]
  exact add_csv_self s hu hid s (fun p hp => hp) hdates hyrs hprs

/-- Demo store for the C7 witness. -/
def c7Store : Store := [⟨1, "Widget", 10, 500, ⟨2020, 1, 1, 0, 0, 0, 0⟩⟩,
  ⟨2, "Gadget", 3, 1234, ⟨2021, 12, 31, 0, 0, 0, 0⟩⟩]

/-- C7 witness: a concrete two-product store survives backup + re-import. -/
theorem spec_c7_witness :
    uniqueNames c7Store ∧ uniqueIds c7Store ∧
    (∀ p ∈ c7Store, ValidDate p.date_updated ∧ Midnight p.date_updated) ∧
    (∀ p ∈ c7Store, 1000 ≤ p.date_updated.year) ∧
    (∀ p ∈ c7Store, p.product_price.natAbs ≤ 2 ^ 51 - 1) ∧
    add_csv c7Store ((backup_database c7Store).map backupToRaw) = .completed c7Store :=
  ⟨by decide, by decide, by decide, by decide, by decide,
    spec_c7 c7Store (by decide) (by decide) (by decide) (by decide) (by decide)⟩

/-- Store with a price beyond the float-exact range (the state reached by
importing the row `A,1,$558019649569190.91,01/01/2020`), for the C7
counterexample. -/
def cBigStore : Store := [⟨1, "A", 1, 55801964956919096, ⟨2020, 1, 1, 0, 0, 0, 0⟩⟩]

/-- Store holding a valid date of year 200 (the state reached by importing
the row `A,1,$1.00,01/02/0200`), for the C7 counterexample. -/
def cYrStore : Store := [⟨1, "A", 1, 100, ⟨200, 1, 2, 0, 0, 0, 0⟩⟩]

/-- C7 counterexample to the claim as stated: on the reachable single-product
store holding 55801964956919096 cents, the backup renders
`$558019649569191.00` and re-importing stores 55801964956919104 cents — the
store changes; and on the reachable store with year 200, the backup renders
the date `01/02/200`, which `strptime('%m/%d/%Y')` rejects, so the re-import
aborts instead of completing. -/
theorem spec_c7_counterexample :
    parse_price "$558019649569190.91" = some 55801964956919096 ∧
    strptimeMDY "01/02/0200" = some ⟨200, 1, 2, 0, 0, 0, 0⟩ ∧
    uniqueNames cBigStore ∧ uniqueIds cBigStore ∧
    (∀ p ∈ cBigStore, ValidDate p.date_updated ∧ Midnight p.date_updated) ∧
    add_csv cBigStore ((backup_database cBigStore).map backupToRaw) =
      .completed [⟨1, "A", 1, 55801964956919104, ⟨2020, 1, 1, 0, 0, 0, 0⟩⟩] ∧
    add_csv cBigStore ((backup_database cBigStore).map backupToRaw) ≠
      .completed cBigStore ∧
    uniqueNames cYrStore ∧ uniqueIds cYrStore ∧
    (∀ p ∈ cYrStore, ValidDate p.date_updated ∧ Midnight p.date_updated) ∧
    add_csv cYrStore ((backup_database cYrStore).map backupToRaw) = .aborted cYrStore ∧
    add_csv cYrStore ((backup_database cYrStore).map backupToRaw) ≠
      .completed cYrStore := by
  refine ⟨by decide, by decide, by decide, by decide, by decide, by decide,
    by decide, by decide, by decide, by decide, by decide, by decide⟩

/-- C8 (amended): the backup writes exactly one line per stored product, in
table order; when the table is in ascending id order (the maintained
invariant, shown preserved by `reconcile`), the lines are ordered by id; the
price is rendered `$#.##` (two decimals, with the digits those of the
double-rounded cent value); and the date is rendered `MM/DD/YYYY` (2+2+4
digits) only for years of at least 1000 — `strftime` does not pad the year,
so earlier years print with fewer than 4 digits (see the counterexample). -/
theorem spec_c8 (s : Store) (ha : idsAscending s) :
    (backup_database s).length = s.length ∧
    (∀ i : ℕ, (backup_database s).get? i = (s.get? i).map backupRow) ∧
    (∀ i j : Fin s.length, i < j → (s.get i).product_id < (s.get j).product_id) ∧
    (∀ r, idsAscending (reconcile s r)) ∧
    (∀ p ∈ s, 0 ≤ p.product_price → ∃ ip fp,
      (renderPrice p.product_price).data = '$' :: (ip ++ '.' :: fp) ∧
      fp.length = 2 ∧ ip ≠ [] ∧ (ip ++ fp).all isDigit = true) ∧
    (∀ p ∈ s, ValidDate p.date_updated → 1000 ≤ p.date_updated.year → ∃ ms ds ys,
      (strftimeMDY p.date_updated).data = ms ++ '/' :: (ds ++ '/' :: ys) ∧
      ms.length = 2 ∧ ds.length = 2 ∧ ys.length = 4 ∧
      (ms ++ ds ++ ys).all isDigit = true) := by
  refine ⟨?_, ?_, ?_, ?_, ?_, ?_⟩
  · unfold backup_database
    rw [List.length_map]
  · intro i
    unfold backup_database
    rw [List.get?_map]
  · have hp : List.Pairwise (fun a b : Product => a.product_id < b.product_id) s := by
      have h1 := List.chain'_iff_pairwise.mp ha
      rwa [List.pairwise_map] at h1
    intro i j hij
    exact List.pairwise_iff_get.mp hp i j hij
  · intro r
    exact idsAscending_reconcile s r ha
  · intro p _ hpos
    refine ⟨natToDigits ((renderCents p.product_price).natAbs / 100),
      pad2 ((renderCents p.product_price).natAbs % 100),
      ?_, pad2_length (Nat.mod_lt _ (by omega)), natToDigits_ne_nil _, ?_⟩
    · show '$' :: ((if renderNeg p.product_price then ['-'] else []) ++ _) = _
      rw [renderNeg_false hpos, if_neg (by decide : ¬ (false = true)), List.nil_append]
    · rw [List.all_append, natToDigits_all_digit, pad2_all_digit]
      rfl
  · intro p _ hv hyr
    have hv' : 1 ≤ p.date_updated.month ∧ p.date_updated.month ≤ 12 ∧
        1 ≤ p.date_updated.day ∧
        p.date_updated.day ≤ daysInMonth p.date_updated.year p.date_updated.month ∧
        1 ≤ p.date_updated.year ∧ p.date_updated.year ≤ 9999 := hv
    obtain ⟨h1, h2, h3, h4, h5, h6⟩ := hv'
    have h31 := daysInMonth_le p.date_updated.year p.date_updated.month
    refine ⟨pad2 p.date_updated.month, pad2 p.date_updated.day,
      natToDigits p.date_updated.year,
      rfl, pad2_length (by omega), pad2_length (by omega), ?_, ?_⟩
    · have hle : (natToDigits p.date_updated.year).length ≤ 4 :=
        natToDigits_length_le (by omega) (by omega : p.date_updated.year < 10 ^ 4)
      have hge : 3 + 1 ≤ (natToDigits p.date_updated.year).length :=
        natToDigits_length_ge (by
          show 10 ^ 3 ≤ p.date_updated.year
          omega)
      omega
    · rw [List.all_append, List.all_append, pad2_all_digit, pad2_all_digit,
        natToDigits_all_digit]
      rfl

/-- Demo store for the C8 witness. -/
def c8Store : Store := [⟨1, "Widget", 10, 500, ⟨2020, 1, 1, 0, 0, 0, 0⟩⟩,
  ⟨3, "Gadget", 3, 1234, ⟨2021, 12, 31, 0, 0, 0, 0⟩⟩,
  ⟨7, "Sprocket", 2, 99, ⟨2019, 2, 28, 0, 0, 0, 0⟩⟩]

/-- C8 witness: the backup of a concrete id-ascending store has one line per
product. -/
theorem spec_c8_witness :
    idsAscending c8Store ∧ (backup_database c8Store).length = c8Store.length :=
  ⟨by decide, (spec_c8 c8Store (by decide)).1⟩

/-- C8 counterexample to the claim as stated: the valid stored date
January 2 of year 200 is rendered by the backup as the 9-character
`01/02/200`, not as a 10-character `MM/DD/YYYY` string — `strftime('%Y')`
does not zero-pad the year. -/
theorem spec_c8_counterexample :
    ValidDate ⟨200, 1, 2, 0, 0, 0, 0⟩ ∧
    strftimeMDY ⟨200, 1, 2, 0, 0, 0, 0⟩ = "01/02/200" ∧
    (strftimeMDY ⟨200, 1, 2, 0, 0, 0, 0⟩).data.length ≠ 10 := by
  refine ⟨by decide, by decide, by decide⟩

/-- C9: every operation preserves "exactly one live record per name":
creation fails on an existing name, and `reconcile`, `add_csv`,
`update_duplicate` and the interactive add all preserve name uniqueness. -/
theorem spec_c9 :
    (∀ (s : Store) (r : ParsedRow), (∃ p ∈ s, p.product_name = r.product_name) →
      add_entry s r = none) ∧
    (∀ (s : Store) (r : ParsedRow), uniqueNames s → uniqueNames (reconcile s r)) ∧
    (∀ (s : Store) (rows : List RawRow), uniqueNames s →
      uniqueNames (storeOf (add_csv s rows))) ∧
    (∀ (s : Store) (r : ParsedRow) (e : Product), uniqueNames s →
      uniqueNames (update_duplicate s r e)) ∧
    (∀ (s : Store) (name : String) (qty price : ℤ) (now : PyDateTime) (confirm : Bool),
      uniqueNames s → uniqueNames (interactive_add s name qty price now confirm)) := by
  refine ⟨?_, uniqueNames_reconcile, uniqueNames_add_csv, ?_, uniqueNames_interactive_add⟩
  · intro s r h
    unfold add_entry
    rw [if_pos h]
  · intro s r e hu
    unfold uniqueNames
    rw [update_duplicate_map_name]
    exact hu

/-- Demo store for the C9 witness. -/
def c9Store : Store := [⟨1, "Widget", 1, 100, ⟨2020, 1, 1, 0, 0, 0, 0⟩⟩]

/-- Demo incoming row for the C9 witness (same name as the stored record). -/
def c9Row : ParsedRow := ⟨"Widget", 2, 200, ⟨2020, 2, 2, 0, 0, 0, 0⟩⟩

/-- C9 witness: on a concrete store, creating a duplicate name fails and
every operation keeps names unique. -/
theorem spec_c9_witness :
    (∃ p ∈ c9Store, p.product_name = c9Row.product_name) ∧
    uniqueNames c9Store ∧
    (add_entry c9Store c9Row = none ∧
     uniqueNames (reconcile c9Store c9Row) ∧
     uniqueNames (storeOf (add_csv c9Store [⟨"Widget", "2", "$2.00", "02/02/2020"⟩])) ∧
     uniqueNames (update_duplicate c9Store c9Row ⟨1, "Widget", 1, 100, ⟨2020, 1, 1, 0, 0, 0, 0⟩⟩) ∧
     uniqueNames (interactive_add c9Store "Widget" 2 200 ⟨2020, 2, 2, 0, 0, 0, 0⟩ true)) :=
  ⟨by decide, by decide,
    spec_c9.1 c9Store c9Row (by decide),
    spec_c9.2.1 c9Store c9Row (by decide),
    spec_c9.2.2.1 c9Store [⟨"Widget", "2", "$2.00", "02/02/2020"⟩] (by decide),
    spec_c9.2.2.2.1 c9Store c9Row ⟨1, "Widget", 1, 100, ⟨2020, 1, 1, 0, 0, 0, 0⟩⟩ (by decide),
    spec_c9.2.2.2.2 c9Store "Widget" 2 200 ⟨2020, 2, 2, 0, 0, 0, 0⟩ true (by decide)⟩

/-- C10: an interactive price input without a `'.'` is always re-prompted —
`decimal_check`'s `string.index('.')` raises `ValueError` — even though the
same string is a valid whole-dollar amount for the shared parser (`"5"` and
`"$5"` both denote 500 cents); only strings containing a dot can be accepted
interactively. -/
theorem spec_c10 :
    (∀ s : String, '.' ∉ s.data → add_new_product_price_step s = .reprompt) ∧
    (∀ (s : String) (c : ℤ), add_new_product_price_step s = .accepted c → '.' ∈ s.data) ∧
    parse_price "5" = some 500 ∧ parse_price "$5" = some 500 := by
  have h1 : ∀ s : String, '.' ∉ s.data → add_new_product_price_step s = .reprompt := by
    intro s hs
    unfold add_new_product_price_step decimal_check
    rw [if_neg hs]
  refine ⟨h1, ?_, by decide, by decide⟩
  intro s c hacc
  by_contra hdot
  rw [h1 s hdot] at hacc
  exact PromptResult.noConfusion hacc

/-- C10 witness: the whole-dollar input `"5"` is re-prompted. -/
theorem spec_c10_witness :
    ('.' ∉ "5".data) ∧ add_new_product_price_step "5" = .reprompt :=
  ⟨by decide, spec_c10.1 "5" (by decide)⟩

end StoreApp
